import Mathlib

/-!
# Verification of the glowstick storage/retrieval core

Shallow embedding of the glowstick document+vector database
(`pkgs/wiredtiger/wt_service_cgo.go`, `pkgs/db_service/impl.go`) and proofs
about it.

Modelling conventions:
* Go `[]byte` values and C `WT_ITEM`s are `List Nat` (one `Nat` per byte).
* C strings (`char*`) are also modelled as `List Nat` of their bytes; the
  WiredTiger string tables store NUL-free C strings, on which `strcmp`
  coincides with lexicographic byte comparison including the
  shorter-string-first rule (the NUL terminator compares below every
  non-NUL byte).
* The WiredTiger B-tree engine is a black box (spec section 6); a table is
  its observable content: a list of key/value records strictly ascending
  in unsigned byte order.  `cursor->next`, `search_near`, `get_key`,
  `get_value` are interpreted against that list.
* Machine integers (`int`, `size_t`, `uint32_t`) are `Nat`/`Int`; the only
  place a width matters is the `(uint32_t)` truncation of record lengths
  when packing batch buffers, which is modelled with `% 2^32`.
-/

/-! ## Byte sequences and the C comparison routines -/

/-- A byte string (Go `[]byte` / C `WT_ITEM` contents). -/
abbrev Bytes := List Nat

/-- `compare_wt_items` (wt_service_cgo.go): `memcmp` over the common
prefix, then the shorter item compares smaller.  Structurally this is
three-way lexicographic comparison of the byte lists. -/
def compareWtItems : Bytes → Bytes → Ordering
  | [], [] => .eq
  | [], _ :: _ => .lt
  | _ :: _, [] => .gt
  | a :: as, b :: bs =>
    if a < b then .lt
    else if b < a then .gt
    else compareWtItems as bs

/-- `a` is strictly below `b` in unsigned byte order. -/
def bytesLt (a b : Bytes) : Bool := compareWtItems a b == .lt

/-- `a ≤ b` in unsigned byte order. -/
def bytesLe (a b : Bytes) : Bool := !(compareWtItems a b == .gt)

theorem compareWtItems_eq_iff : ∀ a b : Bytes, compareWtItems a b = .eq ↔ a = b := by
  intro a
  induction a with
  | nil => intro b; cases b <;> simp [compareWtItems]
  | cons x xs ih =>
    intro b
    cases b with
    | nil => simp [compareWtItems]
    | cons y ys =>
      by_cases hxy : x < y
      · simp [compareWtItems, hxy]
        omega
      · by_cases hyx : y < x
        · simp [compareWtItems, hxy, hyx]
          omega
        · have hx : x = y := by omega
          simp [compareWtItems, hxy, hyx, hx, ih]

theorem compareWtItems_self (a : Bytes) : compareWtItems a a = .eq :=
  (compareWtItems_eq_iff a a).mpr rfl

theorem compareWtItems_swap : ∀ a b : Bytes,
    compareWtItems b a = (compareWtItems a b).swap := by
  intro a
  induction a with
  | nil => intro b; cases b <;> simp [compareWtItems, Ordering.swap]
  | cons x xs ih =>
    intro b
    cases b with
    | nil => simp [compareWtItems, Ordering.swap]
    | cons y ys =>
      by_cases hxy : x < y
      · have : ¬ y < x := by omega
        simp [compareWtItems, hxy, this, Ordering.swap]
      · by_cases hyx : y < x
        · simp [compareWtItems, hxy, hyx, Ordering.swap]
        · simp [compareWtItems, hxy, hyx, ih]

theorem compareWtItems_lt_trans : ∀ a b c : Bytes,
    compareWtItems a b = .lt → compareWtItems b c = .lt →
    compareWtItems a c = .lt := by
  intro a
  induction a with
  | nil =>
    intro b c hab hbc
    cases b with
    | nil => simp [compareWtItems] at hab
    | cons y ys =>
      cases c with
      | nil => simp [compareWtItems] at hbc
      | cons z zs => simp [compareWtItems]
  | cons x xs ih =>
    intro b c hab hbc
    cases b with
    | nil => simp [compareWtItems] at hab
    | cons y ys =>
      cases c with
      | nil => simp [compareWtItems] at hbc
      | cons z zs =>
        simp only [compareWtItems] at hab hbc ⊢
        by_cases hxy : x < y
        · -- x < y; from hbc, y ≤ z, hence x < z
          by_cases hyz : y < z
          · have hxz : x < z := by omega
            simp [hxz]
          · by_cases hzy : z < y
            · simp [hyz, hzy] at hbc
            · have hyz' : y = z := by omega
              have hxz : x < z := by omega
              simp [hxz]
        · by_cases hyx : y < x
          · simp [hxy, hyx] at hab
          · have hxy' : x = y := by omega
            subst hxy'
            by_cases hxz : x < z
            · simp [hxz]
            · by_cases hzx : z < x
              · simp [hxz, hzx] at hbc
              · simp [hxy, hyx] at hab
                simp [hxz, hzx] at hbc
                simp [hxz, hzx]
                exact ih _ _ hab hbc

theorem bytesLt_iff {a b : Bytes} : bytesLt a b ↔ compareWtItems a b = .lt := by
  unfold bytesLt
  cases h : compareWtItems a b <;> decide

theorem bytesLe_iff {a b : Bytes} : bytesLe a b ↔ compareWtItems a b ≠ .gt := by
  unfold bytesLe
  cases h : compareWtItems a b <;> decide

theorem compareWtItems_gt_iff {a b : Bytes} :
    compareWtItems a b = .gt ↔ compareWtItems b a = .lt := by
  rw [compareWtItems_swap a b]
  cases h : compareWtItems a b <;> simp [h, Ordering.swap]

theorem bytesLt_trans {a b c : Bytes} (h₁ : bytesLt a b) (h₂ : bytesLt b c) :
    bytesLt a c := by
  rw [bytesLt_iff] at *
  exact compareWtItems_lt_trans a b c h₁ h₂

theorem bytesLt_irrefl (a : Bytes) : ¬ bytesLt a a := by
  rw [bytesLt_iff, compareWtItems_self]
  simp

theorem bytesLe_iff_not_lt {a b : Bytes} : bytesLe a b ↔ ¬ bytesLt b a := by
  rw [bytesLe_iff, bytesLt_iff]
  exact not_congr compareWtItems_gt_iff

theorem bytesLe_of_lt {a b : Bytes} (h : bytesLt a b) : bytesLe a b := by
  rw [bytesLe_iff_not_lt]
  intro h'
  rw [bytesLt_iff] at h h'
  have := compareWtItems_lt_trans a b a h h'
  rw [compareWtItems_self] at this
  exact absurd this (by simp)

theorem bytesLe_refl (a : Bytes) : bytesLe a a := by
  rw [bytesLe_iff_not_lt]
  exact bytesLt_irrefl a

theorem bytesLt_or_eq_or_gt (a b : Bytes) :
    bytesLt a b ∨ a = b ∨ bytesLt b a := by
  cases h : compareWtItems a b with
  | lt => exact Or.inl (bytesLt_iff.mpr h)
  | eq => exact Or.inr (Or.inl ((compareWtItems_eq_iff a b).mp h))
  | gt => exact Or.inr (Or.inr (bytesLt_iff.mpr (compareWtItems_gt_iff.mp h)))

theorem bytesLt_iff_not_le {a b : Bytes} : bytesLt a b ↔ ¬ bytesLe b a := by
  constructor
  · intro h hle
    exact (bytesLe_iff_not_lt.mp hle) h
  · intro h
    rcases bytesLt_or_eq_or_gt a b with h' | h' | h'
    · exact h'
    · subst h'
      exact absurd (bytesLe_refl a) h
    · exact absurd (bytesLe_of_lt h') h

theorem bytesLe_trans {a b c : Bytes} (h₁ : bytesLe a b) (h₂ : bytesLe b c) :
    bytesLe a c := by
  rw [bytesLe_iff_not_lt] at h₁ h₂ ⊢
  intro hca
  rcases bytesLt_or_eq_or_gt a b with h | h | h
  · exact h₂ (bytesLt_trans hca h)
  · subst h
    exact h₂ hca
  · exact h₁ h

theorem bytesLt_of_le_of_lt {a b c : Bytes} (h₁ : bytesLe a b) (h₂ : bytesLt b c) :
    bytesLt a c := by
  rcases bytesLt_or_eq_or_gt a c with h | h | h
  · exact h
  · subst h
    exact absurd h₂ (bytesLe_iff_not_lt.mp h₁)
  · exact absurd (bytesLt_trans h₂ h) (bytesLe_iff_not_lt.mp h₁)

theorem bytesLt_of_lt_of_le {a b c : Bytes} (h₁ : bytesLt a b) (h₂ : bytesLe b c) :
    bytesLt a c := by
  rcases bytesLt_or_eq_or_gt a c with h | h | h
  · exact h
  · subst h
    exact absurd h₁ (bytesLe_iff_not_lt.mp h₂)
  · exact absurd (bytesLt_trans h h₁) (bytesLe_iff_not_lt.mp h₂)

/-! ## Tables

A WiredTiger table, observed through a cursor, is a list of key/value
records in strictly ascending unsigned-byte key order (spec section 3,
invariant 1).  Cursor positions are indices into that list. -/

/-- One stored record. -/
structure WtRec where
  key : Bytes
  val : Bytes
deriving DecidableEq

/-- The engine invariant: keys strictly ascend in unsigned byte order. -/
def TableSorted (rs : List WtRec) : Prop :=
  rs.Pairwise (fun a b => bytesLt a.key b.key)

/-- Key `k` is below the end bound.  The binary scan routines guard every
comparison with `end_key.size > 0`, so an empty end key never excludes a
record. -/
def belowEnd (endKey k : Bytes) : Bool :=
  endKey == [] || bytesLt k endKey

/-- Index of the first record whose key is ≥ `probe` (`rs.length` if there
is none). -/
def lowerBoundIdx (rs : List WtRec) (probe : Bytes) : Nat :=
  rs.findIdx (fun r => bytesLe probe r.key)

/-- WiredTiger `cursor->search_near` interpreted on the table contents.
`none` models `WT_NOTFOUND` (empty table).  Otherwise the result is the
position of the nearest key and the reported `exact` relation (`0` exact
match, `-1` returned key below the probe, `1` above).  WiredTiger promises
only a key adjacent to the probe on either side; this model resolves that
freedom deterministically: an exact match when one exists, otherwise the
largest key below the probe, otherwise the smallest key above it. -/
def searchNear (rs : List WtRec) (probe : Bytes) : Option (Nat × Int) :=
  let j := lowerBoundIdx rs probe
  if h : j < rs.length then
    if (rs.get ⟨j, h⟩).key = probe then some (j, 0)
    else if j > 0 then some (j - 1, -1)
    else some (j, 1)
  else
    if rs.length = 0 then none else some (rs.length - 1, -1)

/-! ## Binary range cursor: C layer (`wt_range_ctx_bin_t`) -/

/-- The C-side context of a binary range scan. -/
structure WtRangeCtxBin where
  pos : Nat
  valid : Bool
  inRange : Bool
  endKey : Bytes
deriving DecidableEq

/-- The bound check both positioning paths of `wt_range_scan_init_bin`
fall through to (its final `get_key` / `compare_wt_items` block): read the
key at position `p` and compare it with the end bound. -/
def initBinCheck (rs : List WtRec) (endKey : Bytes) (p : Nat) : WtRangeCtxBin :=
  match rs.get? p with
  | none => ⟨p, false, false, endKey⟩
  | some r =>
    if belowEnd endKey r.key then ⟨p, true, true, endKey⟩
    else ⟨p, false, false, endKey⟩

/-- `wt_range_scan_init_bin`: position a fresh cursor at the first key of
the range.  An empty `startKey` positions via a single `next` (first
record of the table); otherwise `search_near` positions at the nearest
key, and a `-1` relation (landed below the probe) is fixed up by one
`next`.  Every `WT_NOTFOUND` leaves a context marked invalid rather than
failing. -/
def wtRangeScanInitBin (rs : List WtRec) (startKey endKey : Bytes) : WtRangeCtxBin :=
  if startKey = [] then
    match rs with
    | [] => ⟨0, false, false, endKey⟩
    | _ :: _ => initBinCheck rs endKey 0
  else
    match searchNear rs startKey with
    | none => ⟨0, false, false, endKey⟩
    | some (i, exact) =>
      if exact < 0 then
        if i + 1 < rs.length then initBinCheck rs endKey (i + 1)
        else ⟨0, false, false, endKey⟩
      else initBinCheck rs endKey i

/-- The four little-endian bytes the C code `memcpy`s for a `uint32_t`
length prefix; the cast from `size_t` truncates to 32 bits. -/
def u32le (n : Nat) : Bytes :=
  [n % 256, n / 256 % 256, n / 65536 % 256, n / 16777216 % 256]

/-- Go `binary.LittleEndian.Uint32` over four bytes. -/
def leUint32 (b0 b1 b2 b3 : Nat) : Nat :=
  b0 + 256 * b1 + 65536 * b2 + 16777216 * b3

/-- One record as packed into the binary batch buffer:
`[key_len u32 LE][key bytes][val_len u32 LE][val bytes]`. -/
def encodeRec (r : WtRec) : Bytes :=
  u32le r.key.length ++ r.key ++ u32le r.val.length ++ r.val

/-- A run of packed records. -/
def encodeRecs (l : List WtRec) : Bytes :=
  (l.map encodeRec).flatten

/-- What one call of the batch loop produces and how it leaves the cursor. -/
structure BatchStep where
  bytes : Bytes
  added : Nat
  consumed : Nat
  validAfter : Bool
  inRangeAfter : Bool
deriving DecidableEq

/-- The record-accumulation loop of `wt_range_scan_next_batch_bin`, seen
from the current cursor position: `rest` is the table suffix at the
cursor, `len` the bytes already in the buffer (including the 4-byte count
header), `cnt` the records already packed.  The loop stops on the end
bound (cursor marked out of range), on end of table (`next` fails, cursor
marked invalid), when the next record would not fit in the `cap`-byte
buffer (cursor left on that record), or at 1000 records per batch. -/
def batchLoopBin (endKey : Bytes) (cap : Nat) : List WtRec → Nat → Nat → BatchStep
  | [], _, _ => ⟨[], 0, 0, false, true⟩
  | r :: rest, len, cnt =>
    if ¬ belowEnd endKey r.key then ⟨[], 0, 0, false, false⟩
    else
      let need := 4 + r.key.length + 4 + r.val.length
      if len + need > cap then ⟨[], 0, 0, true, true⟩
      else
        match rest with
        | [] => ⟨encodeRec r, 1, 1, false, true⟩
        | _ :: _ =>
          if cnt + 1 ≥ 1000 then ⟨encodeRec r, 1, 1, true, true⟩
          else
            let s := batchLoopBin endKey cap rest (len + need) (cnt + 1)
            ⟨encodeRec r ++ s.bytes, s.added + 1, s.consumed + 1,
              s.validAfter, s.inRangeAfter⟩

/-- `wt_range_scan_next_batch_bin`: C return code, the transferred buffer
together with its record count (`none` models `*out_buf = NULL` /
`*out_count = 0`), and the updated context.  An invalid or out-of-range
context yields an empty batch with code 0. -/
def wtRangeScanNextBatchBin (rs : List WtRec) (ctx : WtRangeCtxBin)
    (maxBufSize : Nat) : Int × Option (Bytes × Nat) × WtRangeCtxBin :=
  if ¬ (ctx.valid && ctx.inRange) then (0, none, ctx)
  else
    let cap := if maxBufSize > 0 then maxBufSize else 1048576
    if cap < 4 then (-1, none, ctx)
    else
      let s := batchLoopBin ctx.endKey cap (rs.drop ctx.pos) 4 0
      let ctx' : WtRangeCtxBin :=
        ⟨ctx.pos + s.consumed, s.validAfter, s.inRangeAfter, ctx.endKey⟩
      if s.added > 0 then (0, some (u32le s.added ++ s.bytes, s.added), ctx')
      else (0, none, ctx')

/-! ## Binary range cursor: Go layer (`binaryRangeCursor`) -/

/-- The Go `binaryRangeCursor` state.  `ctx = none` models the nil context
after `Close`; `err` models a latched non-nil `c.err`. -/
structure BinaryRangeCursor where
  ctx : Option WtRangeCtxBin
  err : Bool
  valid : Bool
  buf : Bytes
  off : Nat
  left : Nat
  currKey : Bytes
  currVal : Bytes
deriving DecidableEq

/-- `cgoService.ScanRangeBinary`: build the C context and wrap it; the
cursor starts `valid` exactly when the context positioned on a record. -/
def scanRangeBinary (rs : List WtRec) (startKey endKey : Bytes) :
    BinaryRangeCursor :=
  let ctx := wtRangeScanInitBin rs startKey endKey
  ⟨some ctx, false, ctx.valid, [], 0, 0, [], []⟩

/-- The hard-coded Go batch buffer size: `const maxBuf = (1024*1024)*2`. -/
def maxBatchBuf : Nat := 2097152

/-- `binaryRangeCursor.fetchBatch`; the `Bool` is `true` when the Go
method returns a non-nil error. -/
def fetchBatchBin (rs : List WtRec) (ctx : WtRangeCtxBin)
    (c : BinaryRangeCursor) : BinaryRangeCursor × Bool :=
  let res := wtRangeScanNextBatchBin rs ctx maxBatchBuf
  let c := { c with ctx := some res.2.2 }
  if res.1 ≠ 0 then (c, true)
  else
    match res.2.1 with
    | none => ({ c with buf := [], off := 0, left := 0 }, false)
    | some (buf, _) =>
      if buf.length < 4 then ({ c with buf := buf }, true)
      else
        ({ c with
            buf := buf,
            off := 4,
            left := leUint32 (buf.getD 0 0) (buf.getD 1 0)
              (buf.getD 2 0) (buf.getD 3 0) }, false)

/-- `binaryRangeCursor.Next`: refill the buffer when exhausted, then parse
one `[key_len][key][val_len][val]` record, keeping owned copies of key and
value. -/
def binNext (rs : List WtRec) (c : BinaryRangeCursor) : Bool × BinaryRangeCursor :=
  match c.ctx with
  | none => (false, { c with valid := false })
  | some ctx =>
    if c.err then (false, { c with valid := false })
    else
      let fetched := if c.left = 0 then fetchBatchBin rs ctx c else (c, false)
      let c := fetched.1
      if fetched.2 then (false, { c with err := true, valid := false })
      else if c.left = 0 then (false, { c with valid := false })
      else if c.off + 4 > c.buf.length then
        (false, { c with err := true, valid := false })
      else
        let klen := leUint32 (c.buf.getD c.off 0) (c.buf.getD (c.off + 1) 0)
          (c.buf.getD (c.off + 2) 0) (c.buf.getD (c.off + 3) 0)
        let off1 := c.off + 4
        if off1 + klen + 4 > c.buf.length then
          (false, { c with err := true, valid := false })
        else
          let key := (c.buf.drop off1).take klen
          let off2 := off1 + klen
          let vlen := leUint32 (c.buf.getD off2 0) (c.buf.getD (off2 + 1) 0)
            (c.buf.getD (off2 + 2) 0) (c.buf.getD (off2 + 3) 0)
          let off3 := off2 + 4
          if off3 + vlen > c.buf.length then
            (false, { c with err := true, valid := false })
          else
            (true, { c with
              off := off3 + vlen,
              left := c.left - 1,
              valid := true,
              currKey := key,
              currVal := (c.buf.drop off3).take vlen })

/-- `binaryRangeCursor.Current`: `none` models the
"cursor not on record" error returned when `valid` is unset. -/
def binCurrent (c : BinaryRangeCursor) : Option (Bytes × Bytes) :=
  if c.valid then some (c.currKey, c.currVal) else none

/-- `binaryRangeCursor.Close`: frees and nils the context; always returns
a nil error, and touches nothing else (in particular not `valid`). -/
def binClose (c : BinaryRangeCursor) : BinaryRangeCursor :=
  { c with ctx := none }

/-- Drive the cursor as every caller in the repository does: call `Next`
until it returns false, reading `Current`'s key after each success. -/
def binCollect (rs : List WtRec) : Nat → BinaryRangeCursor → List Bytes
  | 0, _ => []
  | fuel + 1, c =>
    match binNext rs c with
    | (true, c') => c'.currKey :: binCollect rs fuel c'
    | (false, _) => []

/-! ## Correctness of the binary range cursor -/

theorem encodeRec_length (r : WtRec) :
    (encodeRec r).length = 8 + r.key.length + r.val.length := by
  simp [encodeRec, u32le]
  omega

theorem leUint32_u32le (n : Nat) (h : n < 4294967296) :
    leUint32 (n % 256) (n / 256 % 256) (n / 65536 % 256) (n / 16777216 % 256) = n := by
  unfold leUint32
  omega

theorem getD_u32le_append (n : Nat) (x : Bytes) :
    (u32le n ++ x).getD 0 0 = n % 256 ∧
    (u32le n ++ x).getD 1 0 = n / 256 % 256 ∧
    (u32le n ++ x).getD 2 0 = n / 65536 % 256 ∧
    (u32le n ++ x).getD 3 0 = n / 16777216 % 256 := by
  simp [u32le, List.getD]

theorem drop_u32le_append (n : Nat) (x : Bytes) : (u32le n ++ x).drop 4 = x := by
  simp [u32le]

/-- Reading a well-formed record out of the batch buffer: when the unread
part of the buffer starts with `encodeRec r` and the record's sizes fit a
`uint32`, `Next` succeeds, exposes `r`'s key and value, and consumes
exactly the record's bytes. -/
theorem binNext_parse (rs : List WtRec) (ctx : WtRangeCtxBin)
    (c : BinaryRangeCursor) (r : WtRec) (tail : Bytes)
    (hctx : c.ctx = some ctx) (herr : c.err = false) (hleft : ¬ c.left = 0)
    (hoff : c.off ≤ c.buf.length)
    (hdrop : c.buf.drop c.off = encodeRec r ++ tail)
    (hk : r.key.length < 4294967296) (hv : r.val.length < 4294967296) :
    binNext rs c = (true, { c with
      off := c.off + (encodeRec r).length,
      left := c.left - 1,
      valid := true,
      currKey := r.key,
      currVal := r.val }) := by
  have hgetD : ∀ i, c.buf.getD (c.off + i) 0 = (encodeRec r ++ tail).getD i 0 := by
    intro i
    rw [List.getD_eq_getElem?_getD, List.getD_eq_getElem?_getD, ← hdrop,
      List.getElem?_drop]
  have hlen : c.buf.length = c.off + (8 + r.key.length + r.val.length + tail.length) := by
    have h1 : (c.buf.drop c.off).length = c.buf.length - c.off := List.length_drop _ _
    rw [hdrop] at h1
    simp [encodeRec_length] at h1
    omega
  -- the buffer from `off` is [klen u32][key][vlen u32][val][tail]
  have hshape : c.buf.drop c.off
      = u32le r.key.length ++ (r.key ++ (u32le r.val.length ++ (r.val ++ tail))) := by
    rw [hdrop]
    simp [encodeRec]
  -- reading the key length
  have hklen : leUint32 (c.buf.getD c.off 0) (c.buf.getD (c.off + 1) 0)
      (c.buf.getD (c.off + 2) 0) (c.buf.getD (c.off + 3) 0) = r.key.length := by
    have h0 := hgetD 0
    have h1 := hgetD 1
    have h2 := hgetD 2
    have h3 := hgetD 3
    rw [show c.off + 0 = c.off by omega] at h0
    rw [hdrop] at *
    obtain ⟨g0, g1, g2, g3⟩ := getD_u32le_append r.key.length
      (r.key ++ (u32le r.val.length ++ (r.val ++ tail)))
    rw [show encodeRec r ++ tail
        = u32le r.key.length ++ (r.key ++ (u32le r.val.length ++ (r.val ++ tail))) by
      simp [encodeRec]] at h0 h1 h2 h3
    rw [h0, h1, h2, h3, g0, g1, g2, g3]
    exact leUint32_u32le _ hk
  -- the buffer from `off + 4`
  have hdrop1 : c.buf.drop (c.off + 4) = r.key ++ (u32le r.val.length ++ (r.val ++ tail)) := by
    rw [← List.drop_drop, hshape, drop_u32le_append]
  -- the key bytes
  have hkey : (c.buf.drop (c.off + 4)).take r.key.length = r.key := by
    rw [hdrop1]
    exact List.take_left _ _
  -- the buffer from `off + 4 + klen`
  have hdrop2 : c.buf.drop (c.off + 4 + r.key.length)
      = u32le r.val.length ++ (r.val ++ tail) := by
    rw [← List.drop_drop, hdrop1]
    exact List.drop_left _ _
  -- reading the value length
  have hvlen : leUint32 (c.buf.getD (c.off + 4 + r.key.length) 0)
      (c.buf.getD (c.off + 4 + r.key.length + 1) 0)
      (c.buf.getD (c.off + 4 + r.key.length + 2) 0)
      (c.buf.getD (c.off + 4 + r.key.length + 3) 0) = r.val.length := by
    have hg : ∀ i, c.buf.getD (c.off + 4 + r.key.length + i) 0
        = (u32le r.val.length ++ (r.val ++ tail)).getD i 0 := by
      intro i
      rw [List.getD_eq_getElem?_getD, List.getD_eq_getElem?_getD, ← hdrop2,
        List.getElem?_drop]
    have h0 := hg 0
    rw [show c.off + 4 + r.key.length + 0 = c.off + 4 + r.key.length by omega] at h0
    obtain ⟨g0, g1, g2, g3⟩ := getD_u32le_append r.val.length (r.val ++ tail)
    rw [h0, hg 1, hg 2, hg 3, g0, g1, g2, g3]
    exact leUint32_u32le _ hv
  -- the value bytes
  have hdrop3 : c.buf.drop (c.off + 4 + r.key.length + 4) = r.val ++ tail := by
    rw [← List.drop_drop, hdrop2, drop_u32le_append]
  have hval : (c.buf.drop (c.off + 4 + r.key.length + 4)).take r.val.length = r.val := by
    rw [hdrop3]
    exact List.take_left _ _
  -- now run the function
  simp only [binNext, hctx, herr, Bool.false_eq_true, if_false, if_neg hleft]
  simp only [hklen, hvlen, hkey, hval]
  rw [if_neg (by omega), if_neg (by omega), if_neg (by omega)]
  have harith : c.off + 4 + r.key.length + 4 + r.val.length
      = c.off + (encodeRec r).length := by
    rw [encodeRec_length]
    omega
  rw [harith]

/-- A record fits into a batch buffer of capacity `cap` even as the first
record of a batch: 4 count-header bytes plus its `[len][key][len][val]`
framing. -/
def fitsCap (cap : Nat) (r : WtRec) : Prop :=
  12 + r.key.length + r.val.length ≤ cap

@[simp] theorem encodeRecs_nil : encodeRecs [] = [] := rfl

theorem encodeRecs_cons (r : WtRec) (l : List WtRec) :
    encodeRecs (r :: l) = encodeRec r ++ encodeRecs l := by
  simp [encodeRecs]

/-- One-step unfolding of `batchLoopBin` on a non-empty suffix. -/
theorem batchLoopBin_cons (endKey : Bytes) (cap : Nat) (r : WtRec)
    (rest : List WtRec) (len cnt : Nat) :
    batchLoopBin endKey cap (r :: rest) len cnt
      = if ¬ belowEnd endKey r.key then ⟨[], 0, 0, false, false⟩
        else if len + (4 + r.key.length + 4 + r.val.length) > cap then
          ⟨[], 0, 0, true, true⟩
        else
          match rest with
          | [] => ⟨encodeRec r, 1, 1, false, true⟩
          | _ :: _ =>
            if cnt + 1 ≥ 1000 then ⟨encodeRec r, 1, 1, true, true⟩
            else
              ⟨encodeRec r ++ (batchLoopBin endKey cap rest
                  (len + (4 + r.key.length + 4 + r.val.length)) (cnt + 1)).bytes,
                (batchLoopBin endKey cap rest
                  (len + (4 + r.key.length + 4 + r.val.length)) (cnt + 1)).added + 1,
                (batchLoopBin endKey cap rest
                  (len + (4 + r.key.length + 4 + r.val.length)) (cnt + 1)).consumed + 1,
                (batchLoopBin endKey cap rest
                  (len + (4 + r.key.length + 4 + r.val.length)) (cnt + 1)).validAfter,
                (batchLoopBin endKey cap rest
                  (len + (4 + r.key.length + 4 + r.val.length)) (cnt + 1)).inRangeAfter⟩ := by
  conv =>
    lhs
    rw [batchLoopBin]

/-- What the batch loop packs: some prefix of the in-range records at the
cursor, advancing the cursor by exactly that many records.  When the loop
leaves the cursor valid and in range without packing anything, the head
record was in range but did not fit the remaining capacity; when it
leaves it invalid or out of range, every in-range record at the cursor
was packed. -/
theorem batchLoopBin_spec (endKey : Bytes) (cap : Nat) :
    ∀ (rest : List WtRec) (len cnt : Nat),
    ∃ k va ia,
      batchLoopBin endKey cap rest len cnt
        = ⟨encodeRecs ((rest.takeWhile (fun r => belowEnd endKey r.key)).take k),
            k, k, va, ia⟩ ∧
      k ≤ (rest.takeWhile (fun r => belowEnd endKey r.key)).length ∧
      rest.take k = (rest.takeWhile (fun r => belowEnd endKey r.key)).take k ∧
      (va = true → ia = true → k = 0 →
        ∃ r rest', rest = r :: rest' ∧ belowEnd endKey r.key ∧
          len + (4 + r.key.length + 4 + r.val.length) > cap) ∧
      (¬ (va = true ∧ ia = true) →
        (rest.takeWhile (fun r => belowEnd endKey r.key)).drop k = []) ∧
      (cnt + k ≤ 1000 ∨ k ≤ 1) := by
  intro rest
  induction rest with
  | nil =>
    intro len cnt
    refine ⟨0, false, true, ?_, ?_, ?_, ?_, ?_, ?_⟩ <;> simp [batchLoopBin, encodeRecs]
  | cons r rest ih =>
    intro len cnt
    by_cases hr : belowEnd endKey r.key
    · by_cases hfit : len + (4 + r.key.length + 4 + r.val.length) > cap
      · -- record does not fit: loop stops, cursor still on `r`
        refine ⟨0, true, true, ?_, ?_, ?_, ?_, ?_, ?_⟩
        · simp [batchLoopBin, hr, hfit, encodeRecs]
        · simp
        · simp
        · intro _ _ _
          exact ⟨r, rest, rfl, hr, hfit⟩
        · simp
        · omega
      · -- record packed
        cases rest with
        | nil =>
          -- `next` hits the end of the table
          refine ⟨1, false, true, ?_, ?_, ?_, ?_, ?_, ?_⟩
          · simp [batchLoopBin, hr, hfit, encodeRecs]
          · simp [List.takeWhile_cons, hr]
          · simp [List.takeWhile_cons, hr]
          · simp
          · simp [List.takeWhile_cons, hr]
          · omega
        | cons r2 rest2 =>
          by_cases hcnt : cnt + 1 ≥ 1000
          · -- per-batch record cap reached
            refine ⟨1, true, true, ?_, ?_, ?_, ?_, ?_, ?_⟩
            · simp [batchLoopBin, hr, hfit, hcnt, List.takeWhile_cons, encodeRecs_cons]
            · simp [List.takeWhile_cons, hr]
            · simp [List.takeWhile_cons, hr]
            · simp
            · simp
            · omega
          · obtain ⟨k, va, ia, heq, hle, htake, hfull, hdone, hbound⟩ :=
              ih (len + (4 + r.key.length + 4 + r.val.length)) (cnt + 1)
            refine ⟨k + 1, va, ia, ?_, ?_, ?_, ?_, ?_, ?_⟩
            · rw [batchLoopBin_cons, if_neg (by simp [hr]), if_neg (by omega)]
              simp only [heq]
              simp [List.takeWhile_cons, hr, encodeRecs_cons,
                show ¬ 999 ≤ cnt by omega]
            · simp only [List.takeWhile_cons] at hle
              simp only [List.takeWhile_cons, hr, if_pos, List.length_cons]
              omega
            · simp only [List.takeWhile_cons] at htake
              simp only [List.takeWhile_cons, hr, if_pos, List.take_succ_cons]
              rw [htake]
            · omega
            · intro hni
              simp only [List.takeWhile_cons] at hdone
              simp only [List.takeWhile_cons, hr, if_pos, List.drop_succ_cons]
              exact hdone hni
            · omega
    · -- head record out of range: cursor invalidated, nothing packed
      refine ⟨0, false, false, ?_, ?_, ?_, ?_, ?_, ?_⟩
      · simp [batchLoopBin, hr, encodeRecs, List.takeWhile_cons]
      · simp
      · simp
      · simp
      · simp [List.takeWhile_cons, hr]
      · omega

/-- The records the cursor still has to deliver: nothing if it is invalid
or out of range, otherwise the in-range records from its position on. -/
def pendingAt (rs : List WtRec) (ctx : WtRangeCtxBin) : List WtRec :=
  if ctx.valid && ctx.inRange then
    (rs.drop ctx.pos).takeWhile (fun r => belowEnd ctx.endKey r.key)
  else []

theorem takeWhile_drop_comm {α : Type} (p : α → Bool) :
    ∀ (k : Nat) (l : List α), (∀ x ∈ l.take k, p x) →
    (l.drop k).takeWhile p = (l.takeWhile p).drop k := by
  intro k
  induction k with
  | zero => intro l _; simp
  | succ k ih =>
    intro l hall
    cases l with
    | nil => simp
    | cons x xs =>
      have hx : p x := hall x (by simp)
      have hxs : ∀ y ∈ xs.take k, p y := by
        intro y hy
        exact hall y (by simp [List.take_succ_cons]; exact Or.inr hy)
      simp only [List.drop_succ_cons, List.takeWhile_cons, hx, if_pos,
        List.drop_succ_cons]
      exact ih xs hxs

/-- Key/value sizes of a record that fits the Go batch buffer are far
below `2^32`, so their `uint32` length prefixes do not truncate. -/
theorem fitsCap_sizes {r : WtRec} (h : fitsCap maxBatchBuf r) :
    r.key.length < 4294967296 ∧ r.val.length < 4294967296 := by
  unfold fitsCap maxBatchBuf at h
  omega

/-- `wt_range_scan_next_batch_bin` on a valid in-range cursor: it packs the
first `k` still-pending records (at least one unless nothing is pending,
given that every record fits the buffer), hands them over as a counted
buffer, and advances the cursor past them. -/
theorem nextBatchBin_spec (rs : List WtRec) (ctx : WtRangeCtxBin) (cap : Nat)
    (hv : ctx.valid = true) (hi : ctx.inRange = true) (hcap : 4 ≤ cap)
    (hfits : ∀ r ∈ rs.drop ctx.pos, fitsCap cap r) :
    ∃ k ctx',
      wtRangeScanNextBatchBin rs ctx cap
        = (0, if k = 0 then none
              else some (u32le k ++ encodeRecs ((pendingAt rs ctx).take k), k),
            ctx') ∧
      k ≤ 1000 ∧
      k ≤ (pendingAt rs ctx).length ∧
      pendingAt rs ctx' = (pendingAt rs ctx).drop k ∧
      (k = 0 → pendingAt rs ctx = []) ∧
      ctx'.endKey = ctx.endKey := by
  obtain ⟨k, va, ia, heq, hle, htake, hfull, hdone, hbound⟩ :=
    batchLoopBin_spec ctx.endKey cap (rs.drop ctx.pos) 4 0
  have hpend : pendingAt rs ctx
      = (rs.drop ctx.pos).takeWhile (fun r => belowEnd ctx.endKey r.key) := by
    simp [pendingAt, hv, hi]
  refine ⟨k, ⟨ctx.pos + k, va, ia, ctx.endKey⟩, ?_, by omega, by rw [hpend]; exact hle,
    ?_, ?_, rfl⟩
  · -- the returned tuple
    unfold wtRangeScanNextBatchBin
    rw [if_neg (by simp [hv, hi])]
    have hcap' : (if cap > 0 then cap else 1048576) = cap := by
      rw [if_pos (by omega)]
    simp only [gt_iff_lt, hcap']
    rw [if_neg (by omega)]
    simp only [heq, hpend]
    by_cases hk : k = 0
    · subst hk
      simp
    · rw [if_pos (by omega), if_neg hk]
  · -- the records still pending afterwards
    by_cases hvia : va = true ∧ ia = true
    · have hall : ∀ x ∈ (rs.drop ctx.pos).take k, belowEnd ctx.endKey x.key := by
        intro x hx
        rw [htake] at hx
        have hx' : x ∈ (rs.drop ctx.pos).takeWhile
            (fun r => belowEnd ctx.endKey r.key) := List.take_subset _ _ hx
        have hx2 := List.mem_takeWhile_imp hx'
        exact hx2
      have : pendingAt rs ⟨ctx.pos + k, va, ia, ctx.endKey⟩
          = ((rs.drop ctx.pos).drop k).takeWhile
              (fun r => belowEnd ctx.endKey r.key) := by
        simp [pendingAt, hvia.1, hvia.2, List.drop_drop]
      rw [this, hpend, takeWhile_drop_comm _ k _ hall]
    · have h1 : pendingAt rs ⟨ctx.pos + k, va, ia, ctx.endKey⟩ = [] := by
        unfold pendingAt
        rw [if_neg]
        simp only [Bool.and_eq_true]
        exact hvia
      rw [h1, hpend, hdone hvia]
  · -- an empty batch means nothing was pending
    intro hk
    subst hk
    by_cases hvia : va = true ∧ ia = true
    · obtain ⟨r, rest', hcons, hbelow, hover⟩ := hfull hvia.1 hvia.2 rfl
      have hr : r ∈ rs.drop ctx.pos := by rw [hcons]; simp
      have := hfits r hr
      unfold fitsCap at this
      omega
    · rw [hpend]
      simpa using hdone hvia

/-- Invariant tying a live Go cursor to the batch machinery: no latched
error, a live context, and a buffer whose unread part is exactly the
packed form of the records `bufRecs` still to be parsed out of it. -/
structure BinInv (rs : List WtRec) (c : BinaryRangeCursor)
    (ctx : WtRangeCtxBin) (bufRecs : List WtRec) : Prop where
  err_false : c.err = false
  ctx_some : c.ctx = some ctx
  buf_suffix : c.buf.drop c.off = encodeRecs bufRecs
  off_le : c.off ≤ c.buf.length
  left_count : c.left = bufRecs.length
  buf_mem : ∀ r ∈ bufRecs, r ∈ rs

/-- After a successful refill of an exhausted buffer, `Next` continues
exactly as a fresh `Next` on the refilled cursor would. -/
theorem binNext_refetch (rs : List WtRec) (ctx ctx₁ : WtRangeCtxBin)
    (c c₁ : BinaryRangeCursor)
    (hctx : c.ctx = some ctx) (herr : c.err = false) (hleft : c.left = 0)
    (hfetch : fetchBatchBin rs ctx c = (c₁, false))
    (hctx1 : c₁.ctx = some ctx₁) (herr1 : c₁.err = false)
    (hleft1 : ¬ c₁.left = 0) :
    binNext rs c = binNext rs c₁ := by
  conv =>
    lhs
    rw [binNext]
  conv =>
    rhs
    rw [binNext]
  rw [hctx, hctx1]
  simp only [herr, herr1, Bool.false_eq_true, if_false, hleft, if_pos,
    if_neg hleft1, hfetch]

/-- Parsing the next buffered record preserves the invariant and yields
that record's key. -/
theorem binNext_yield_buf (rs : List WtRec)
    (hfits : ∀ r ∈ rs, fitsCap maxBatchBuf r)
    {c : BinaryRangeCursor} {ctx : WtRangeCtxBin} {r : WtRec}
    {brest : List WtRec} (hinv : BinInv rs c ctx (r :: brest)) :
    ∃ c', binNext rs c = (true, c') ∧ c'.currKey = r.key ∧
      BinInv rs c' ctx brest := by
  have hr : r ∈ rs := hinv.buf_mem r (by simp)
  obtain ⟨hk, hv⟩ := fitsCap_sizes (hfits r hr)
  have hleft : ¬ c.left = 0 := by
    rw [hinv.left_count]
    simp
  have hdrop : c.buf.drop c.off = encodeRec r ++ encodeRecs brest := by
    rw [hinv.buf_suffix, encodeRecs_cons]
  have hstep := binNext_parse rs ctx c r (encodeRecs brest) hinv.ctx_some
    hinv.err_false hleft hinv.off_le hdrop hk hv
  refine ⟨_, hstep, rfl, ?_⟩
  have hlen : c.buf.length
      = c.off + ((encodeRec r).length + (encodeRecs brest).length) := by
    have h1 : (c.buf.drop c.off).length = c.buf.length - c.off :=
      List.length_drop _ _
    rw [hdrop] at h1
    simp at h1
    have := hinv.off_le
    omega
  refine ⟨hinv.err_false, hinv.ctx_some, ?_, by simp; omega, ?_,
    fun x hx => hinv.buf_mem x (by simp [hx])⟩
  · show c.buf.drop (c.off + (encodeRec r).length) = encodeRecs brest
    rw [← List.drop_drop, hdrop]
    exact List.drop_left _ _
  · show c.left - 1 = brest.length
    rw [hinv.left_count]
    simp

/-- When nothing is buffered and nothing is pending, `Next` returns false. -/
theorem binNext_done (rs : List WtRec)
    (hfits : ∀ r ∈ rs, fitsCap maxBatchBuf r)
    {c : BinaryRangeCursor} {ctx : WtRangeCtxBin}
    (hinv : BinInv rs c ctx [])
    (hpend : pendingAt rs ctx = []) :
    (binNext rs c).1 = false := by
  have hleft : c.left = 0 := by
    rw [hinv.left_count]
    rfl
  have hfetch : ∃ c₁ : BinaryRangeCursor,
      fetchBatchBin rs ctx c = (c₁, false) ∧ c₁.left = 0 := by
    by_cases hvi : ctx.valid && ctx.inRange
    · obtain ⟨k, ctx', heq, hk1000, hkle, hpend', hk0, hend⟩ :=
        nextBatchBin_spec rs ctx maxBatchBuf (by simp at hvi; exact hvi.1)
          (by simp at hvi; exact hvi.2) (by unfold maxBatchBuf; omega)
          (fun r hrmem => hfits r (List.Sublist.mem hrmem (List.drop_sublist _ _)))
      have hk : k = 0 := by
        rw [hpend] at hkle
        simpa using hkle
      subst hk
      have heq' : wtRangeScanNextBatchBin rs ctx maxBatchBuf = (0, none, ctx') := by
        rw [heq]
        simp
      refine ⟨{ c with ctx := some ctx', buf := [], off := 0, left := 0 }, ?_, rfl⟩
      rw [fetchBatchBin, heq']
      simp
    · have heq' : wtRangeScanNextBatchBin rs ctx maxBatchBuf = (0, none, ctx) := by
        rw [wtRangeScanNextBatchBin, if_pos (by simpa using hvi)]
      refine ⟨{ c with ctx := some ctx, buf := [], off := 0, left := 0 }, ?_, rfl⟩
      rw [fetchBatchBin, heq']
      simp
  obtain ⟨c₁, hf, hl1⟩ := hfetch
  rw [binNext, hinv.ctx_some]
  simp only [hinv.err_false, Bool.false_eq_true, if_false, hleft, if_pos, hf,
    hl1, if_true]

/-- One successful `Next` step: with records still to deliver, `Next`
yields the first of them and the invariant carries to the rest. -/
theorem binNext_yield (rs : List WtRec)
    (hfits : ∀ r ∈ rs, fitsCap maxBatchBuf r)
    {c : BinaryRangeCursor} {ctx : WtRangeCtxBin} {bufRecs : List WtRec}
    {r : WtRec} {rest : List WtRec}
    (hinv : BinInv rs c ctx bufRecs)
    (hcons : bufRecs ++ pendingAt rs ctx = r :: rest) :
    ∃ c' ctx' bufRecs', binNext rs c = (true, c') ∧ c'.currKey = r.key ∧
      BinInv rs c' ctx' bufRecs' ∧ bufRecs' ++ pendingAt rs ctx' = rest := by
  cases bufRecs with
  | cons r0 brest =>
    have hr0 : r0 = r := by
      have := congrArg (fun l => List.head? l) hcons
      simpa using this
    subst hr0
    have hrest : brest ++ pendingAt rs ctx = rest := by
      have := congrArg List.tail hcons
      simpa using this
    obtain ⟨c', hnext, hkey, hinv'⟩ := binNext_yield_buf rs hfits hinv
    exact ⟨c', ctx, brest, hnext, hkey, hinv', hrest⟩
  | nil =>
    simp only [List.nil_append] at hcons
    have hvi : ctx.valid = true ∧ ctx.inRange = true := by
      by_contra h
      have hempty : pendingAt rs ctx = [] := by
        unfold pendingAt
        rw [if_neg]
        simpa [Bool.and_eq_true] using h
      rw [hempty] at hcons
      cases hcons
    obtain ⟨k, ctx', heq, hk1000, hkle, hpend', hk0, hend⟩ :=
      nextBatchBin_spec rs ctx maxBatchBuf hvi.1 hvi.2
        (by unfold maxBatchBuf; omega)
        (fun x hx => hfits x (List.Sublist.mem hx (List.drop_sublist _ _)))
    have hkpos : ¬ k = 0 := by
      intro h0
      rw [hk0 h0] at hcons
      cases hcons
    have hbufeq : wtRangeScanNextBatchBin rs ctx maxBatchBuf
        = (0, some (u32le k ++ encodeRecs ((pendingAt rs ctx).take k), k), ctx') := by
      rw [heq, if_neg hkpos]
    have hdec : leUint32
        ((u32le k ++ encodeRecs ((pendingAt rs ctx).take k)).getD 0 0)
        ((u32le k ++ encodeRecs ((pendingAt rs ctx).take k)).getD 1 0)
        ((u32le k ++ encodeRecs ((pendingAt rs ctx).take k)).getD 2 0)
        ((u32le k ++ encodeRecs ((pendingAt rs ctx).take k)).getD 3 0) = k := by
      obtain ⟨g0, g1, g2, g3⟩ :=
        getD_u32le_append k (encodeRecs ((pendingAt rs ctx).take k))
      rw [g0, g1, g2, g3]
      exact leUint32_u32le _ (by omega)
    have hlen4 : ¬ (u32le k ++ encodeRecs ((pendingAt rs ctx).take k)).length < 4 := by
      simp [u32le]
    have hfetch : fetchBatchBin rs ctx c
        = ({ c with
              ctx := some ctx',
              buf := u32le k ++ encodeRecs ((pendingAt rs ctx).take k),
              off := 4,
              left := k }, false) := by
      rw [fetchBatchBin, hbufeq]
      simp only [ne_eq, if_neg hlen4]
      simp only [List.getD_eq_getElem?_getD] at hdec
      simp [hdec]
    have hleft0 : c.left = 0 := by
      rw [hinv.left_count]
      rfl
    have hinv1 : BinInv rs
        { c with
          ctx := some ctx',
          buf := u32le k ++ encodeRecs ((pendingAt rs ctx).take k),
          off := 4,
          left := k } ctx' ((pendingAt rs ctx).take k) := by
      refine ⟨hinv.err_false, rfl, ?_, ?_, ?_, ?_⟩
      · exact drop_u32le_append _ _
      · simp [u32le]
      · show k = ((pendingAt rs ctx).take k).length
        rw [List.length_take]
        omega
      · intro x hx
        have hx1 : x ∈ pendingAt rs ctx := List.take_subset _ _ hx
        unfold pendingAt at hx1
        rw [if_pos (by simp [hvi.1, hvi.2])] at hx1
        have hx2 : x ∈ rs.drop ctx.pos :=
          List.Sublist.mem hx1 (List.takeWhile_sublist _)
        exact List.Sublist.mem hx2 (List.drop_sublist _ _)
    have htk : (pendingAt rs ctx).take k = r :: rest.take (k - 1) := by
      rw [hcons]
      cases k with
      | zero => exact absurd rfl hkpos
      | succ k' => simp [List.take_succ_cons]
    rw [htk] at hinv1
    obtain ⟨c₂, hnext2, hkey2, hinv2⟩ := binNext_yield_buf rs hfits hinv1
    have hnext : binNext rs c = (true, c₂) := by
      rw [binNext_refetch rs ctx ctx' c _ hinv.ctx_some hinv.err_false hleft0
        hfetch rfl hinv.err_false (by simpa using hkpos), htk]
      exact hnext2
    refine ⟨c₂, ctx', rest.take (k - 1), hnext, hkey2, hinv2, ?_⟩
    rw [hpend', hcons]
    cases k with
    | zero => exact absurd rfl hkpos
    | succ k' =>
      simp only [List.drop_succ_cons, Nat.add_sub_cancel]
      exact List.take_append_drop _ _

/-- Driving the cursor with enough fuel returns exactly the keys of the
records it still had to deliver, in order. -/
theorem binCollect_spec (rs : List WtRec)
    (hfits : ∀ r ∈ rs, fitsCap maxBatchBuf r) :
    ∀ (pend : List WtRec) (fuel : Nat) (c : BinaryRangeCursor)
      (ctx : WtRangeCtxBin) (bufRecs : List WtRec),
      BinInv rs c ctx bufRecs → bufRecs ++ pendingAt rs ctx = pend →
      pend.length < fuel →
      binCollect rs fuel c = pend.map (fun r => r.key) := by
  intro pend
  induction pend with
  | nil =>
    intro fuel c ctx bufRecs hinv hpend hfuel
    obtain ⟨fuel, rfl⟩ : ∃ f, fuel = f + 1 := by
      cases fuel
      · omega
      · exact ⟨_, rfl⟩
    have hbuf : bufRecs = [] := by
      cases bufRecs with
      | nil => rfl
      | cons a l => simp at hpend
    subst hbuf
    simp only [List.nil_append] at hpend
    have hfalse := binNext_done rs hfits hinv hpend
    rw [binCollect]
    rcases hnb : binNext rs c with ⟨b, c₂⟩
    rw [hnb] at hfalse
    simp at hfalse
    subst hfalse
    rfl
  | cons r rest ih =>
    intro fuel c ctx bufRecs hinv hpend hfuel
    obtain ⟨fuel, rfl⟩ : ∃ f, fuel = f + 1 := by
      cases fuel
      · omega
      · exact ⟨_, rfl⟩
    obtain ⟨c', ctx', bufRecs', hnext, hkey, hinv', hrest⟩ :=
      binNext_yield rs hfits hinv hpend
    rw [binCollect, hnext]
    show c'.currKey :: binCollect rs fuel c' = _
    rw [hkey, ih fuel c' ctx' bufRecs' hinv' hrest (by simp at hfuel ⊢; omega)]
    rfl

theorem bytesLe_nil_left (k : Bytes) : bytesLe [] k := by
  cases k <;> rfl


/-- The shared bound check positions the pending records at `p`:
whether or not it invalidates the context, the records still to deliver
are the in-range records of the table suffix at `p`. -/
theorem pendingAt_initBinCheck (rs : List WtRec) (endKey : Bytes) (p : Nat) :
    pendingAt rs (initBinCheck rs endKey p)
      = (rs.drop p).takeWhile (fun r => belowEnd endKey r.key) := by
  unfold initBinCheck
  rcases hg : rs.get? p with _ | r
  · have hlen : rs.length ≤ p := by
      rw [List.get?_eq_getElem?] at hg
      by_contra h
      rw [List.getElem?_eq_getElem (by omega)] at hg
      cases hg
    rw [List.drop_eq_nil_iff.mpr hlen]
    simp [pendingAt]
  · have hlt : p < rs.length := by
      rw [List.get?_eq_getElem?] at hg
      by_contra h
      rw [List.getElem?_eq_none (by omega)] at hg
      cases hg
    have hdropc : rs.drop p = r :: rs.drop (p + 1) := by
      have := List.drop_eq_getElem_cons hlt
      rw [this]
      congr 1
      rw [List.get?_eq_getElem?, List.getElem?_eq_getElem hlt] at hg
      exact Option.some_inj.mp hg
    by_cases hb : belowEnd endKey r.key
    · simp only []
      rw [if_pos hb]
      simp only [pendingAt]
      rw [if_pos (by simp)]
    · simp only []
      rw [if_neg hb]
      simp only [pendingAt]
      rw [if_neg (by simp), hdropc, List.takeWhile_cons, if_neg (by simp [hb])]

/-- Wherever positioning ends up, the records a fresh binary cursor still
has to deliver are the in-range records from the first key ≥ `startKey`.
This holds for every table, sorted or not, because the bound check and
the batch loop re-test each record. -/
theorem pendingAt_init (rs : List WtRec) (startKey endKey : Bytes) :
    pendingAt rs (wtRangeScanInitBin rs startKey endKey)
      = (rs.drop (lowerBoundIdx rs startKey)).takeWhile
          (fun r => belowEnd endKey r.key) := by
  unfold wtRangeScanInitBin
  by_cases hstart : startKey = []
  · rw [if_pos hstart]
    have hj : lowerBoundIdx rs startKey = 0 := by
      cases rs with
      | nil => rfl
      | cons r rest =>
        unfold lowerBoundIdx
        rw [List.findIdx_cons]
        subst hstart
        simp [bytesLe_nil_left]
    rw [hj]
    cases rs with
    | nil => simp [pendingAt]
    | cons r rest => exact pendingAt_initBinCheck _ _ 0
  · rw [if_neg hstart]
    unfold searchNear lowerBoundIdx
    set j := rs.findIdx (fun r => bytesLe startKey r.key) with hjdef
    by_cases hjlt : j < rs.length
    · rw [dif_pos hjlt]
      by_cases hex : (rs.get ⟨j, hjlt⟩).key = startKey
      · rw [if_pos hex]
        simp only []
        rw [if_neg (show ¬ ((0 : Int) < 0) by decide)]
        exact pendingAt_initBinCheck _ _ j
      · rw [if_neg hex]
        by_cases hj0 : j > 0
        · rw [if_pos hj0]
          simp only []
          rw [if_pos (show ((-1 : Int) < 0) by decide)]
          have h1 : j - 1 + 1 = j := by omega
          rw [h1, if_pos hjlt]
          exact pendingAt_initBinCheck _ _ j
        · rw [if_neg hj0]
          simp only []
          rw [if_neg (show ¬ ((1 : Int) < 0) by decide)]
          exact pendingAt_initBinCheck _ _ j
    · rw [dif_neg hjlt]
      have hjlen : rs.length ≤ j := by omega
      have hdrop : rs.drop j = [] := List.drop_eq_nil_iff.mpr hjlen
      by_cases hrs0 : rs.length = 0
      · rw [if_pos hrs0]
        simp [pendingAt, hdrop]
      · rw [if_neg hrs0]
        simp only []
        rw [if_pos (show ((-1 : Int) < 0) by decide)]
        rw [if_neg (show ¬ (rs.length - 1 + 1 < rs.length) by omega)]
        simp [pendingAt, hdrop]

/-- On a sorted table, dropping everything before the first key ≥
`startKey` is the same as filtering for keys ≥ `startKey`. -/
theorem sorted_drop_lowerBound (startKey : Bytes) :
    ∀ (rs : List WtRec), TableSorted rs →
    rs.drop (lowerBoundIdx rs startKey)
      = rs.filter (fun r => bytesLe startKey r.key) := by
  intro rs
  induction rs with
  | nil => intro _; rfl
  | cons r rest ih =>
    intro hs
    obtain ⟨hhead, htail⟩ := List.pairwise_cons.mp hs
    by_cases hr : bytesLe startKey r.key
    · have hall : ∀ x ∈ r :: rest, bytesLe startKey x.key := by
        intro x hx
        rcases List.mem_cons.mp hx with h | h
        · subst h; exact hr
        · exact bytesLe_trans hr (bytesLe_of_lt (hhead x h))
      rw [List.filter_eq_self.mpr hall]
      unfold lowerBoundIdx
      rw [List.findIdx_cons]
      simp [hr]
    · unfold lowerBoundIdx
      rw [List.findIdx_cons]
      simp only [hr, cond_false]
      rw [List.drop_succ_cons, List.filter_cons, if_neg hr]
      exact ih htail

/-- On a sorted table, the in-range records form a prefix: taking while
below the bound equals filtering for it. -/
theorem sorted_takeWhile_belowEnd (endKey : Bytes) :
    ∀ (rs : List WtRec), TableSorted rs →
    rs.takeWhile (fun r => belowEnd endKey r.key)
      = rs.filter (fun r => belowEnd endKey r.key) := by
  intro rs
  induction rs with
  | nil => intro _; rfl
  | cons r rest ih =>
    intro hs
    obtain ⟨hhead, htail⟩ := List.pairwise_cons.mp hs
    by_cases hr : belowEnd endKey r.key
    · rw [List.takeWhile_cons, if_pos hr, List.filter_cons, if_pos hr, ih htail]
    · rw [List.takeWhile_cons, if_neg hr]
      have hall : ∀ x ∈ r :: rest, ¬ belowEnd endKey x.key := by
        intro x hx
        rcases List.mem_cons.mp hx with h | h
        · subst h; exact hr
        · intro hxb
          apply hr
          unfold belowEnd at hxb ⊢
          rcases Bool.or_eq_true_iff.mp hxb with he | hlt
          · rw [he]
            simp
          · have := bytesLt_trans (hhead x h) hlt
            rw [this]
            simp
      rw [List.filter_eq_nil_iff.mpr hall]

/-- **Main cursor theorem.** On a sorted table whose records all fit the
2 MiB batch buffer, driving the binary range cursor to exhaustion yields
exactly the keys `k` with `startKey ≤ k` (no lower bound when `startKey`
is empty — the order puts `[]` below everything) and `k < endKey` (no
upper bound when `endKey` is empty), each once, in table order. -/
theorem binScanRange_collect (rs : List WtRec) (startKey endKey : Bytes)
    (hs : TableSorted rs) (hfits : ∀ r ∈ rs, fitsCap maxBatchBuf r)
    (fuel : Nat) (hfuel : rs.length < fuel) :
    binCollect rs fuel (scanRangeBinary rs startKey endKey)
      = (rs.filter (fun r => bytesLe startKey r.key
          && belowEnd endKey r.key)).map (fun r => r.key) := by
  have hinv : BinInv rs (scanRangeBinary rs startKey endKey)
      (wtRangeScanInitBin rs startKey endKey) [] := by
    refine ⟨rfl, rfl, ?_, ?_, rfl, ?_⟩
    · rfl
    · simp [scanRangeBinary]
    · intro x hx
      cases hx
  have hpend : pendingAt rs (wtRangeScanInitBin rs startKey endKey)
      = rs.filter (fun r => bytesLe startKey r.key && belowEnd endKey r.key) := by
    rw [pendingAt_init, sorted_drop_lowerBound startKey rs hs,
      sorted_takeWhile_belowEnd endKey _
        (List.Pairwise.filter _ hs),
      List.filter_filter]
    exact List.filter_congr (by intro x _; rw [Bool.and_comm])
  refine binCollect_spec rs hfits _ fuel _ _ [] hinv (by rw [hpend]; rfl) ?_
  calc (rs.filter _).length ≤ rs.length := List.length_filter_le _ _
    _ < fuel := hfuel

/-! ## String range cursor (`wt_range_ctx_t` / `stringRangeCursor`)

String keys and values are NUL-free C strings, modelled as their byte
lists; `strcmp` on them is `compareWtItems` (the NUL terminator compares
below every non-NUL byte, giving the shorter-string-first rule). -/

/-- The C-side context of a string range scan. -/
structure WtRangeCtxStr where
  pos : Nat
  valid : Bool
  inRange : Bool
  endKey : Bytes
deriving DecidableEq

/-- The bound check of `wt_range_scan_init_str`: read the key at `p` and
keep the cursor only when `strcmp(curr, end_key) < 0`.  There is no
empty-end-key guard here, so an empty end key (to which every string
compares ≥) immediately invalidates the cursor. -/
def initStrCheck (rs : List WtRec) (endKey : Bytes) (p : Nat) : WtRangeCtxStr :=
  match rs.get? p with
  | none => ⟨p, false, false, endKey⟩
  | some r =>
    if bytesLt r.key endKey then ⟨p, true, true, endKey⟩
    else ⟨p, false, false, endKey⟩

/-- `wt_range_scan_init_str`.  `search_near`'s return code is ignored; on
an empty table `exact` keeps its initial value `0` and the subsequent
`get_key` fails, leaving an invalid cursor.  When `search_near` lands
below the start key (`exact = -1`) the code calls `reset` and then
`next`, which positions at the FIRST record of the whole table — not at
the first record ≥ `start_key`. -/
def wtRangeScanInitStr (rs : List WtRec) (startKey endKey : Bytes) :
    WtRangeCtxStr :=
  match searchNear rs startKey with
  | none => ⟨0, false, false, endKey⟩
  | some (i, exact) =>
    if exact < 0 then initStrCheck rs endKey 0
    else initStrCheck rs endKey i

/-- Result of the string batch loop, starting from a cursor whose flags
are both set: the packed bytes, counts, the final flag values, and the C
error code the loop leaves in `err`. -/
structure StrBatchStep where
  bytes : Bytes
  count : Nat
  consumed : Nat
  validAfter : Bool
  inRangeAfter : Bool
  errCode : Int
deriving DecidableEq

/-- The record loop of `wt_range_scan_next_batch` (string cursor): up to
`max_records` records, each packed as `[key_len][key][val_len][val]` with
no leading count.  The growable `wt_batch_buf_t` never rejects a record,
so there is no capacity stop.  When `next` fails after at least one
record the error is cleared and — unlike the binary loop — the context
flags are left untouched, so the next call finds a cursor that still
claims to be valid and fails `get_key` (the `[]` case, code `-1`). -/
def batchLoopStr (endKey : Bytes) : Nat → List WtRec → StrBatchStep
  | 0, _ => ⟨[], 0, 0, true, true, 0⟩
  | _ + 1, [] => ⟨[], 0, 0, true, true, -1⟩
  | n + 1, r :: rest =>
    if ¬ bytesLt r.key endKey then ⟨[], 0, 0, false, false, 0⟩
    else
      match rest with
      | [] => ⟨encodeRec r, 1, 1, true, true, 0⟩
      | _ :: _ =>
        let s := batchLoopStr endKey n rest
        ⟨encodeRec r ++ s.bytes, s.count + 1, s.consumed + 1,
          s.validAfter, s.inRangeAfter, s.errCode⟩

/-- `wt_range_scan_next_batch`: empty success on an invalid or
out-of-range cursor, otherwise run the loop and transfer the buffer when
it packed anything. -/
def wtRangeScanNextBatch (rs : List WtRec) (ctx : WtRangeCtxStr)
    (maxRecords : Nat) : Int × Option (Bytes × Nat) × WtRangeCtxStr :=
  if ¬ (ctx.valid && ctx.inRange) then (0, none, ctx)
  else
    let s := batchLoopStr ctx.endKey maxRecords (rs.drop ctx.pos)
    let ctx' : WtRangeCtxStr :=
      ⟨ctx.pos + s.consumed, s.validAfter, s.inRangeAfter, ctx.endKey⟩
    if s.count > 0 then (0, some (s.bytes, s.count), ctx')
    else (s.errCode, none, ctx')

/-- The Go `stringRangeCursor` state. -/
structure StringRangeCursor where
  ctx : Option WtRangeCtxStr
  err : Bool
  closed : Bool
  valid : Bool
  firstCall : Bool
  batchBuffer : Bytes
  readOffset : Nat
  currKey : Bytes
  currVal : Bytes
deriving DecidableEq

/-- `cgoService.ScanRange`: note that the wrapper sets `valid: true`
unconditionally, whatever the positioning found. -/
def scanRangeStr (rs : List WtRec) (startKey endKey : Bytes) :
    StringRangeCursor :=
  ⟨some (wtRangeScanInitStr rs startKey endKey),
    false, false, true, true, [], 0, [], []⟩

/-- `stringRangeCursor.fetchNextBatch` with its `batchSize = 1000`. -/
def fetchNextBatchStr (rs : List WtRec) (ctx : WtRangeCtxStr)
    (c : StringRangeCursor) : StringRangeCursor × Bool :=
  let res := wtRangeScanNextBatch rs ctx 1000
  let c := { c with ctx := some res.2.2 }
  if res.1 ≠ 0 then (c, true)
  else
    match res.2.1 with
    | none => ({ c with batchBuffer := [], readOffset := 0 }, false)
    | some (buf, _) => ({ c with batchBuffer := buf, readOffset := 0 }, false)

/-- `stringRangeCursor.readNextKV`: parse one length-prefixed record at
`readOffset`; `none` models the "incomplete batch" errors. -/
def readNextKV (c : StringRangeCursor) : Option StringRangeCursor :=
  if c.readOffset + 4 > c.batchBuffer.length then none
  else
    let klen := leUint32 (c.batchBuffer.getD c.readOffset 0)
      (c.batchBuffer.getD (c.readOffset + 1) 0)
      (c.batchBuffer.getD (c.readOffset + 2) 0)
      (c.batchBuffer.getD (c.readOffset + 3) 0)
    let off1 := c.readOffset + 4
    if off1 + klen > c.batchBuffer.length then none
    else
      let key := (c.batchBuffer.drop off1).take klen
      let off2 := off1 + klen
      if off2 + 4 > c.batchBuffer.length then none
      else
        let vlen := leUint32 (c.batchBuffer.getD off2 0)
          (c.batchBuffer.getD (off2 + 1) 0)
          (c.batchBuffer.getD (off2 + 2) 0)
          (c.batchBuffer.getD (off2 + 3) 0)
        let off3 := off2 + 4
        if off3 + vlen > c.batchBuffer.length then none
        else
          some { c with
            currKey := key,
            currVal := (c.batchBuffer.drop off3).take vlen,
            readOffset := off3 + vlen }

/-- `stringRangeCursor.Next`. -/
def strNext (rs : List WtRec) (c : StringRangeCursor) :
    Bool × StringRangeCursor :=
  match c.ctx with
  | none => (false, { c with valid := false })
  | some ctx =>
    if c.closed || c.err then (false, { c with valid := false })
    else
      if c.readOffset ≥ c.batchBuffer.length then
        let fetched := fetchNextBatchStr rs ctx c
        if fetched.2 then (false, { fetched.1 with err := true, valid := false })
        else if fetched.1.batchBuffer.length = 0 then
          (false, { fetched.1 with valid := false })
        else
          match readNextKV fetched.1 with
          | none => (false, { fetched.1 with err := true, valid := false })
          | some c' => (true, { c' with valid := true })
      else
        match readNextKV c with
        | none => (false, { c with err := true, valid := false })
        | some c' => (true, { c' with valid := true })

/-- `stringRangeCursor.CurrentString`: `none` models the error returned
when the cursor is not on a valid record or an error is latched. -/
def currentString (c : StringRangeCursor) : Option (Bytes × Bytes) :=
  if ¬ c.valid then none
  else if c.err then none
  else some (c.currKey, c.currVal)

/-- `stringRangeCursor.Close`: a no-op (returning a nil error) when
already closed or without a context; otherwise it releases the C context
and marks the cursor closed.  It does not touch `valid`. -/
def closeStr (c : StringRangeCursor) : StringRangeCursor :=
  if c.closed || c.ctx.isNone then c
  else { c with closed := true }

/-- Drive the string cursor to exhaustion, collecting keys. -/
def strCollect (rs : List WtRec) : Nat → StringRangeCursor → List Bytes
  | 0, _ => []
  | fuel + 1, c =>
    match strNext rs c with
    | (true, c') => c'.currKey :: strCollect rs fuel c'
    | (false, _) => []

/-! ## Point reads (`GetString` / `GetBinary`)

The Go wrappers call `wt_get_str` / `wt_get_bin` and inspect only the
returned code.  The code is modelled as an arbitrary `Int` so that every
engine outcome — success, `WT_NOTFOUND`, or any other failure — can be
examined. -/

/-- WiredTiger's `WT_NOTFOUND` return code. -/
def WT_NOTFOUND : Int := -31803

/-- String-keyed assoc lookup. -/
def skvGet (tbl : List (String × String)) (k : String) : Option String :=
  (tbl.find? (fun e => e.1 == k)).map (fun e => e.2)

/-- Insert-or-replace for string tables (`cursor->insert` overwrite):
the new entry is placed in front, and `skvGet` returns the first match,
so the most recent write wins — observationally the overwrite. -/
def skvPut (tbl : List (String × String)) (k v : String) :
    List (String × String) :=
  (k, v) :: tbl

/-- Binary-keyed assoc lookup. -/
def kvGet (tbl : List (Bytes × Bytes)) (k : Bytes) : Option Bytes :=
  (tbl.find? (fun e => e.1 == k)).map (fun e => e.2)

/-- Insert-or-replace for binary tables (most recent write wins on
lookup, see `skvPut`). -/
def kvPut (tbl : List (Bytes × Bytes)) (k v : Bytes) : List (Bytes × Bytes) :=
  (k, v) :: tbl

/-- `wt_get_str` against the observable table contents: code 0 with the
value on a hit, `WT_NOTFOUND` on a miss. -/
def wtGetStr (tbl : List (String × String)) (k : String) : Int × String :=
  match skvGet tbl k with
  | some v => (0, v)
  | none => (WT_NOTFOUND, "")

/-- `wt_get_bin` against the observable table contents. -/
def wtGetBin (tbl : List (Bytes × Bytes)) (k : Bytes) : Int × Bytes :=
  match kvGet tbl k with
  | some v => (0, v)
  | none => (WT_NOTFOUND, [])

/-- `cgoService.GetString`, given the connection state and the C call's
result (code, value): the triple is (value, found, non-nil error?). -/
def goGetString (connOpen : Bool) (cres : Int × String) :
    String × Bool × Bool :=
  if ¬ connOpen then ("", false, true)
  else if cres.1 ≠ 0 then ("", false, false)
  else (cres.2, true, false)

/-- `cgoService.GetBinary`, given the connection state, the key, and the
C call's result: the triple is (value, found, non-nil error?). -/
def goGetBinary (connOpen : Bool) (key : Bytes) (cres : Int × Bytes) :
    Bytes × Bool × Bool :=
  if ¬ connOpen then ([], false, true)
  else if key = [] then ([], false, true)
  else if cres.1 ≠ 0 then ([], false, false)
  else (cres.2, true, false)

/-! ## FAISS index and the collection coordinator (`db_service/impl.go`)

The vector embeddings are `float32` slices; the coordinator only appends
them, counts them, and compares search distances, so scalars are
modelled as `Int` (the order and equality tests on non-NaN floats are
all the code uses).  BSON (un)marshalling is the external driver
`go.mongodb.org/mongo-driver/bson` and is kept abstract: an encoder /
partial decoder pair supplied to each operation. -/

/-- A vector embedding. -/
abbrev Vec := List Int

/-- A FAISS index: its fixed dimension and the vectors added so far, in
insertion order.  `ntotal` is the count; `Add` appends and fails on a
dimension mismatch. -/
structure FaissIndex where
  dim : Nat
  vecs : List Vec
deriving DecidableEq

/-- A stored document: the raw 12 bytes of `_Id`, the embedding, and the
content (standing in for all remaining BSON fields). -/
structure GlowstickDocument where
  id : Bytes
  embedding : Vec
  content : String
deriving DecidableEq

/-- The two fields of `CollectionCatalogEntry` that the insert and query
paths read.  A failed `bson.Unmarshal` leaves the zero value. -/
structure CollectionCatalogEntry where
  tableUri : String
  vectorIndexUri : String
deriving DecidableEq

/-- The zero `CollectionCatalogEntry`. -/
def CollectionCatalogEntry.zero : CollectionCatalogEntry := ⟨"", ""⟩

/-- `CollectionStats`.  `Doc_Count` is a Go `int` that is only ever
incremented and `Vector_Index_Size` a `float64` accumulating integer
byte counts; both are exact as naturals in every reachable state (a
`float64` adds integers below `2^53` exactly). -/
structure CollectionStats where
  docCount : Nat
  vectorIndexSize : Nat
deriving DecidableEq

/-- The durable state the coordinator touches: the CATALOG and STATS
tables (binary tables keyed by the raw bytes of strings, modelled by the
strings themselves — UTF-8 encoding is injective), the string-keyed L2D
table, the per-URI collection tables, and the filesystem holding
serialized indexes by path. -/
structure GDBState where
  catalog : List (String × Bytes)
  stats : List (String × Bytes)
  l2d : List (String × String)
  collections : String → List (Bytes × Bytes)
  files : String → Option FaissIndex

/-- String-keyed binary-table lookup (CATALOG / STATS). -/
def sbGet (tbl : List (String × Bytes)) (k : String) : Option Bytes :=
  (tbl.find? (fun e => e.1 == k)).map (fun e => e.2)

/-- Insert-or-replace for string-keyed binary tables (most recent write
wins on lookup, see `skvPut`). -/
def sbPut (tbl : List (String × Bytes)) (k : String) (v : Bytes) :
    List (String × Bytes) :=
  (k, v) :: tbl

/-- `net/url.Parse(...).Path` on the scheme-less relative URIs the
coordinator builds (`<collection>.index`, or the empty string): the
parse succeeds and `Path` is the input itself. -/
def urlParsePath (s : String) : String := s

/-- Lowercase hex digit. -/
def hexDigit (n : Nat) : Char :=
  if n < 10 then Char.ofNat (48 + n) else Char.ofNat (87 + n)

/-- Go `fmt.Sprintf("%x", b)` on a byte slice: two lowercase hex digits
per byte. -/
def bytesToHex (bs : Bytes) : String :=
  String.mk (bs.flatMap (fun b => [hexDigit (b / 16 % 16), hexDigit (b % 16)]))

/-- Value of one hex character (both cases), as `encoding/hex` accepts. -/
def hexCharVal (c : Char) : Option Nat :=
  if 48 ≤ c.toNat ∧ c.toNat ≤ 57 then some (c.toNat - 48)
  else if 97 ≤ c.toNat ∧ c.toNat ≤ 102 then some (c.toNat - 87)
  else if 65 ≤ c.toNat ∧ c.toNat ≤ 70 then some (c.toNat - 55)
  else none

/-- `encoding/hex.DecodeString` on a character list. -/
def hexToBytes : List Char → Option Bytes
  | [] => some []
  | [_] => none
  | c1 :: c2 :: rest => do
    let h ← hexCharVal c1
    let l ← hexCharVal c2
    let tail ← hexToBytes rest
    pure ((16 * h + l) :: tail)

/-- `primitive.ObjectIDFromHex`: exactly 24 hex characters decoding to
12 bytes. -/
def objectIDFromHex (s : String) : Option Bytes :=
  if s.length = 24 then hexToBytes s.data else none

/-- The zero `primitive.ObjectID` (`IsZero`). -/
def zeroObjectID : Bytes := List.replicate 12 0

/-- Errors `InsertDocumentsIntoCollection` can return, one per `return`
site in the source, plus the runtime panic of `documents[0]` on an empty
slice.  Constructors for failures of collaborators that the pure model
makes total (URL parsing, in-memory index creation, file writes) are
kept to mirror the control flow but are unreachable here. -/
inductive InsError where
  | collectionNotFound
  | urlParse
  | indexCreate
  | indexPersist
  | statsFetch
  | statsUnmarshal
  | docMarshal
  | putDocument
  | addEmbedding
  | putLabel
  | statFile
  | statsMarshal
  | statsPut
  | finalIndexWrite
  | panicIndexOutOfRange
deriving DecidableEq

/-- The abstract collaborators of the insert path: the BSON codec (spec
section 6 keeps BSON opaque) and the on-disk size `os.Stat` reports for
a serialized index. -/
structure InsertDeps where
  encDoc : GlowstickDocument → Bytes
  decCat : Bytes → Option CollectionCatalogEntry
  encStats : CollectionStats → Bytes
  decStats : Bytes → Option CollectionStats
  fileSize : FaissIndex → Nat

/-- `PutBinary`: rejects empty keys and empty values, otherwise
insert-or-replace. -/
def putBinary (tbl : List (Bytes × Bytes)) (k v : Bytes) :
    Except Unit (List (Bytes × Bytes)) :=
  if k = [] ∨ v = [] then .error () else .ok (kvPut tbl k v)

/-- The per-document loop of `InsertDocumentsIntoCollection`: marshal and
store the document under its raw `_Id`, append the embedding (label =
`ntotal - 1` read right after the `Add`), write the L2D entry
`decimal(label) → hex(_Id)`, and bump the document count.  `idx.Add`
(the `indexAdd` wrapper, called with `nb = 1`) fails on an empty
embedding (`len(xb) == 0`, "xb empty") and on a dimension mismatch. -/
def insertLoop (D : InsertDeps) (destTableUri : String) :
    List GlowstickDocument → GDBState → FaissIndex → CollectionStats →
    Except InsError (GDBState × FaissIndex × CollectionStats)
  | [], st, idx, stats => .ok (st, idx, stats)
  | doc :: rest, st, idx, stats =>
    let doc_bytes := D.encDoc doc
    match putBinary (st.collections destTableUri) doc.id doc_bytes with
    | .error _ => .error .putDocument
    | .ok tbl' =>
      let st := { st with
        collections := fun t => if t = destTableUri then tbl' else st.collections t }
      if doc.embedding.length = 0 ∨ doc.embedding.length ≠ idx.dim then
        .error .addEmbedding
      else
        let idx : FaissIndex := ⟨idx.dim, idx.vecs ++ [doc.embedding]⟩
        let label : Int := (idx.vecs.length : Int) - 1
        let docIDHex := bytesToHex doc.id
        let st := { st with l2d := skvPut st.l2d (toString label) docIDHex }
        insertLoop D destTableUri rest st idx
          { stats with docCount := stats.docCount + 1 }

/-- `InsertDocumentsIntoCollection` after the catalog entry has been
fetched and (attempted to be) decoded: load or create the vector index,
load the stats, run the document loop, measure the index file as last
flushed, accumulate `Vector_Index_Size`, persist stats, and flush the
index. -/
def insertAfterCatalog (D : InsertDeps) (collectionDefKey : String)
    (collection : CollectionCatalogEntry)
    (documents : List GlowstickDocument) (st : GDBState) :
    Except InsError GDBState :=
  let filePath := urlParsePath collection.vectorIndexUri
  let readRes : Except InsError (FaissIndex × GDBState) :=
    match st.files filePath with
    | some idx => .ok (idx, st)
    | none =>
      match documents with
      | [] => .error .panicIndexOutOfRange
      | d0 :: _ =>
        let idx : FaissIndex := ⟨d0.embedding.length, []⟩
        .ok (idx, { st with
          files := fun p => if p = filePath then some idx else st.files p })
  match readRes with
  | .error e => .error e
  | .ok (idx, st) =>
    let hot_stats := (sbGet st.stats collectionDefKey).getD []
    match D.decStats hot_stats with
    | none => .error .statsUnmarshal
    | some hot_stats_doc =>
      match insertLoop D collection.tableUri documents st idx hot_stats_doc with
      | .error e => .error e
      | .ok (st, idx, hot_stats_doc) =>
        match st.files filePath with
        | none => .error .statFile
        | some fileIdx =>
          let hot_stats_doc : CollectionStats := { hot_stats_doc with
            vectorIndexSize := hot_stats_doc.vectorIndexSize + D.fileSize fileIdx }
          let bytes := D.encStats hot_stats_doc
          if collectionDefKey = "" ∨ bytes = [] then .error .statsPut
          else
            let st := { st with stats := sbPut st.stats collectionDefKey bytes }
            .ok { st with
              files := fun p => if p = filePath then some idx else st.files p }

/-- `GDBService.InsertDocumentsIntoCollection`: fetch the catalog entry
for `<db>.<coll>`, decode it discarding the `bson.Unmarshal` error, and
continue with whatever record that produced. -/
def insertDocumentsIntoCollection (D : InsertDeps) (dbName collName : String)
    (documents : List GlowstickDocument) (st : GDBState) :
    Except InsError GDBState :=
  let collectionDefKey := dbName ++ "." ++ collName
  match sbGet st.catalog collectionDefKey with
  | none => .error .collectionNotFound
  | some val =>
    let collection := (D.decCat val).getD CollectionCatalogEntry.zero
    insertAfterCatalog D collectionDefKey collection documents st

/-! ## Query path -/

/-- Fatal (pre-loop) errors of `QueryCollection`. -/
inductive QueryFatal where
  | collectionNotFound
  | urlParse
  | indexRead
  | search
deriving DecidableEq

/-- Per-result errors recorded in `lastErr`, one per latching site. -/
inductive QueryErr where
  | l2dGet
  | hexLen
  | hexParse
  | zeroOid
  | docIDLen
  | docGet
  | bsonUnmarshal
deriving DecidableEq

/-- The query parameters actually read by `QueryCollection`. -/
structure QueryStruct where
  topK : Nat
  minDistance : Int
  queryEmbedding : Vec
deriving DecidableEq

/-- The abstract collaborators of the query path: the BSON decoders and
the opaque FAISS `Search` (spec section 6 treats the ANN library as a
black box returning `nq*k` distances and ids, with `-1` ids for empty
slots). -/
structure QueryDeps where
  decCat : Bytes → Option CollectionCatalogEntry
  decDoc : Bytes → Option GlowstickDocument
  search : FaissIndex → Vec → Nat → Nat → List Int × List Int

/-- Modelled from Go's `sort` package: `sort.Slice` dispatches to
`pdqsort`, which runs plain insertion sort on ranges of at most 12
elements; there the left-to-right insertion below computes the same
array as the stdlib's in-place right-to-left swaps, so the model is
faithful exactly for at most 12 elements.  Beyond 12, `pdqsort`
partitions and is NOT stable, so only comparator-level facts (sortedness
and being a permutation) carry over to the program, not the tie order.
The comparator is exactly the closure passed to `sort.Slice`. -/
def goInsert {α : Type} (less : α → α → Bool) (x : α) : List α → List α
  | [] => [x]
  | y :: ys => if less x y then x :: y :: ys else y :: goInsert less x ys

/-- `sort.Slice` (see `goInsert`). -/
def goSortSlice {α : Type} (less : α → α → Bool) (l : List α) : List α :=
  l.foldl (fun acc x => goInsert less x acc) []

/-- The index order in which `QueryCollection` visits the search
results: `sort.Slice` over `indices = [0, …, len(distances))` comparing
`distances[indices[i]] < distances[indices[j]]`. -/
def querySortedIndices (distances : List Int) : List Nat :=
  goSortSlice (fun i j => decide (distances.getD i 0 < distances.getD j 0))
    (List.range distances.length)

/-- One iteration of the result loop of `QueryCollection`, threading the
accumulated documents and the latched `lastErr`.  A missing document
(`len(docBin) = 0`) falls outside the `if len(docBin) > 0` block: the
result is skipped with no error recorded. -/
def queryLoopStep (D : QueryDeps) (st : GDBState) (tableUri : String)
    (minDistance : Int) (distances ids : List Int)
    (acc : List GlowstickDocument × Option QueryErr) (index : Nat) :
    List GlowstickDocument × Option QueryErr :=
  let id := ids.getD index (-1)
  let distance := distances.getD index 0
  if id < 0 then acc
  else
    let key := toString id
    let val := (skvGet st.l2d key).getD ""
    if val.length ≠ 24 then (acc.1, some .hexLen)
    else
      match objectIDFromHex val with
      | none => (acc.1, some .hexParse)
      | some objectID =>
        if objectID = zeroObjectID then (acc.1, some .zeroOid)
        else if objectID.length ≠ 12 then (acc.1, some .docIDLen)
        else
          let docBin := (kvGet (st.collections tableUri) objectID).getD []
          if docBin.length > 0 then
            match D.decDoc docBin with
            | none => (acc.1, some .bsonUnmarshal)
            | some doc =>
              if minDistance = 0 ∨ distance < minDistance then
                (acc.1 ++ [doc], acc.2)
              else acc
          else acc

/-- `QueryCollection` after the catalog entry has been resolved: read
the index from disk (`NotFound` when absent), search, sort the result
indices by distance, and run the lenient per-result loop.  On success
the function returns the accumulated documents together with `lastErr`
(`none` exactly when no per-result error was latched). -/
def queryAfterCatalog (D : QueryDeps) (collection : CollectionCatalogEntry)
    (query : QueryStruct) (st : GDBState) :
    Except QueryFatal (List GlowstickDocument × Option QueryErr) :=
  let filePath := urlParsePath collection.vectorIndexUri
  match st.files filePath with
  | none => .error .indexRead
  | some idx =>
    let res := D.search idx query.queryEmbedding 1 query.topK
    let distances := res.1
    let ids := res.2
    let sorted := querySortedIndices distances
    .ok (sorted.foldl
      (queryLoopStep D st collection.tableUri query.minDistance distances ids)
      ([], none))

/-- `GDBService.QueryCollection`: fetch and decode the catalog entry
(discarding the decode error, as the source does), then run the query. -/
def queryCollection (D : QueryDeps) (dbName collName : String)
    (query : QueryStruct) (st : GDBState) :
    Except QueryFatal (List GlowstickDocument × Option QueryErr) :=
  let collectionDefKey := dbName ++ "." ++ collName
  match sbGet st.catalog collectionDefKey with
  | none => .error .collectionNotFound
  | some val =>
    let collection := (D.decCat val).getD CollectionCatalogEntry.zero
    queryAfterCatalog D collection query st

theorem kvGet_kvPut_self (tbl : List (Bytes × Bytes)) (k v : Bytes) :
    kvGet (kvPut tbl k v) k = some v := by
  simp [kvGet, kvPut, List.find?]

theorem kvGet_kvPut_ne (tbl : List (Bytes × Bytes)) (k v k' : Bytes)
    (h : k' ≠ k) : kvGet (kvPut tbl k v) k' = kvGet tbl k' := by
  simp only [kvGet, kvPut, List.find?]
  rw [show ((k, v).1 == k') = false by simpa using fun he => h he.symm]

theorem sbGet_sbPut_self (tbl : List (String × Bytes)) (k : String) (v : Bytes) :
    sbGet (sbPut tbl k v) k = some v := by
  simp [sbGet, sbPut, List.find?]

/-- What the per-document loop does, collected in one statement: it
succeeds whenever every document has a non-empty id, a non-empty
encoding, and an embedding of the index's dimension; it appends the
embeddings in order, adds the batch size to the document count, touches
neither CATALOG, STATS, the filesystem, nor other collection tables, and
leaves an L2D entry `decimal(firstLabel + i) ↦ hex(id_i)` for each
document, where `firstLabel` is the index size before the loop.  When
the ids are pairwise distinct, the collection table afterwards maps each
id to its document's encoding. -/
theorem insertLoop_spec (D : InsertDeps) (destUri : String) :
    ∀ (docs : List GlowstickDocument) (st : GDBState) (idx : FaissIndex)
      (stats : CollectionStats),
    0 < idx.dim →
    (∀ d ∈ docs, d.embedding.length = idx.dim) →
    (∀ d ∈ docs, d.id ≠ []) →
    (∀ d ∈ docs, D.encDoc d ≠ []) →
    ∃ st',
      insertLoop D destUri docs st idx stats
        = .ok (st', ⟨idx.dim, idx.vecs ++ docs.map (fun d => d.embedding)⟩,
            ⟨stats.docCount + docs.length, stats.vectorIndexSize⟩) ∧
      st'.catalog = st.catalog ∧
      st'.stats = st.stats ∧
      st'.files = st.files ∧
      (∀ u, u ≠ destUri → st'.collections u = st.collections u) ∧
      (∃ pre, st'.l2d = pre ++ st.l2d) ∧
      (∀ i, ∀ h : i < docs.length,
        (toString ((idx.vecs.length + i : Nat) : Int),
          bytesToHex (docs.get ⟨i, h⟩).id) ∈ st'.l2d) ∧
      (∀ k : Bytes, (∀ d ∈ docs, d.id ≠ k) →
        kvGet (st'.collections destUri) k = kvGet (st.collections destUri) k) ∧
      ((docs.map (fun d => d.id)).Nodup →
        ∀ i, ∀ h : i < docs.length,
          kvGet (st'.collections destUri) (docs.get ⟨i, h⟩).id
            = some (D.encDoc (docs.get ⟨i, h⟩))) := by
  intro docs
  induction docs with
  | nil =>
    intro st idx stats _ _ _ _
    refine ⟨st, ?_, rfl, rfl, rfl, fun _ _ => rfl, ⟨[], rfl⟩, ?_, fun _ _ => rfl, ?_⟩
    · simp [insertLoop]
    · intro i h
      simp at h
    · intro _ i h
      simp at h
  | cons d rest ih =>
    intro st idx stats hpos hdim hid henc
    have hput : putBinary (st.collections destUri) d.id (D.encDoc d)
        = .ok (kvPut (st.collections destUri) d.id (D.encDoc d)) := by
      unfold putBinary
      rw [if_neg]
      push_neg
      exact ⟨hid d (by simp), henc d (by simp)⟩
    have hdim0 : ¬ (d.embedding.length = 0 ∨ d.embedding.length ≠ idx.dim) := by
      push_neg
      rw [hdim d (by simp)]
      exact ⟨Nat.pos_iff_ne_zero.mp hpos, rfl⟩
    -- the state after processing the head document
    set st₁ : GDBState := { st with
      collections := fun t => if t = destUri
        then kvPut (st.collections destUri) d.id (D.encDoc d)
        else st.collections t,
      l2d := skvPut st.l2d
        (toString ((((idx.vecs ++ [d.embedding]).length : Nat) : Int) - 1))
        (bytesToHex d.id) } with hst₁
    have hstep : insertLoop D destUri (d :: rest) st idx stats
        = insertLoop D destUri rest st₁ ⟨idx.dim, idx.vecs ++ [d.embedding]⟩
            { stats with docCount := stats.docCount + 1 } := by
      rw [insertLoop, hput]
      simp only [hdim0, if_false]
    obtain ⟨st', heq, hcat, hstats, hfiles, hcoll, ⟨pre, hpre⟩, hl2d, hkeep, htbl⟩ :=
      ih st₁ ⟨idx.dim, idx.vecs ++ [d.embedding]⟩
        { stats with docCount := stats.docCount + 1 } hpos
        (fun x hx => hdim x (by simp [hx]))
        (fun x hx => hid x (by simp [hx]))
        (fun x hx => henc x (by simp [hx]))
    refine ⟨st', ?_, hcat, hstats, hfiles, ?_, ?_, ?_, ?_, ?_⟩
    · rw [hstep, heq]
      simp
      omega
    · intro u hu
      rw [hcoll u hu]
      simp [hst₁, hu]
    · refine ⟨pre ++ [(toString ((((idx.vecs ++ [d.embedding]).length : Nat) : Int) - 1),
        bytesToHex d.id)], ?_⟩
      rw [hpre]
      simp [hst₁, skvPut]
    · intro i h
      cases i with
      | zero =>
        have hmem : (toString ((((idx.vecs ++ [d.embedding]).length : Nat) : Int) - 1),
            bytesToHex d.id) ∈ st₁.l2d := by
          simp [hst₁, skvPut]
        have hmem' : (toString ((((idx.vecs ++ [d.embedding]).length : Nat) : Int) - 1),
            bytesToHex d.id) ∈ st'.l2d := by
          rw [hpre]
          exact List.mem_append_right _ hmem
        have hkeyeq : toString ((((idx.vecs ++ [d.embedding]).length : Nat) : Int) - 1)
            = toString ((idx.vecs.length + 0 : Nat) : Int) := by
          congr 1
          simp
        rw [hkeyeq] at hmem'
        simpa using hmem'
      | succ i =>
        have h' : i < rest.length := by simpa using h
        have := hl2d i h'
        have hkeyeq : toString (((idx.vecs ++ [d.embedding]).length + i : Nat) : Int)
            = toString ((idx.vecs.length + (i + 1) : Nat) : Int) := by
          congr 1
          simp
          omega
        rw [hkeyeq] at this
        simpa using this
    · intro k hk
      rw [hkeep k (fun x hx => hk x (by simp [hx]))]
      simp only [hst₁, if_pos rfl]
      exact kvGet_kvPut_ne _ _ _ _ (Ne.symm (hk d (by simp)))
    · intro hnodup i h
      rw [List.map_cons, List.nodup_cons] at hnodup
      cases i with
      | zero =>
        have hkeep0 : kvGet (st'.collections destUri) d.id
            = kvGet (st₁.collections destUri) d.id := by
          refine hkeep d.id ?_
          intro x hx he
          exact hnodup.1 (by rw [← he]; exact List.mem_map_of_mem _ hx)
        show kvGet (st'.collections destUri) d.id = some (D.encDoc d)
        rw [hkeep0]
        simp only [hst₁, if_pos rfl]
        simpa using kvGet_kvPut_self (st.collections destUri) d.id (D.encDoc d)
      | succ i =>
        have h' : i < rest.length := by simpa using h
        have := htbl hnodup.2 i h'
        simpa using this

/-! ## Shared helper lemmas for the claim theorems -/

/-- With a non-empty end key the binary bound check is exactly `<`. -/
theorem belowEnd_of_ne_nil {endKey : Bytes} (h : endKey ≠ []) (k : Bytes) :
    belowEnd endKey k = bytesLt k endKey := by
  simp [belowEnd, h]

/-- Nothing is strictly below the empty byte string. -/
theorem bytesLt_nil_right (k : Bytes) : bytesLt k [] = false := by
  cases k <;> rfl

/-- The string init's bound check always fails on an empty end key. -/
theorem initStrCheck_empty_end (rs : List WtRec) (p : Nat) :
    (initStrCheck rs [] p).valid = false := by
  unfold initStrCheck
  cases h : rs.get? p with
  | none => rfl
  | some r =>
    simp only []
    rw [bytesLt_nil_right]
    rfl

/-- A string scan initialised with an empty end key is invalid. -/
theorem wtRangeScanInitStr_empty_end (rs : List WtRec) (startKey : Bytes) :
    (wtRangeScanInitStr rs startKey []).valid = false := by
  unfold wtRangeScanInitStr
  cases h : searchNear rs startKey with
  | none => rfl
  | some ie =>
    rcases ie with ⟨i, e⟩
    simp only []
    by_cases he : e < 0
    · rw [if_pos he]
      exact initStrCheck_empty_end rs 0
    · rw [if_neg he]
      exact initStrCheck_empty_end rs i

/-- `Next` on a fresh string cursor whose C context is invalid fails. -/
theorem strNext_invalid_ctx (rs : List WtRec) (c : StringRangeCursor)
    (ctx : WtRangeCtxStr) (hc : c.ctx = some ctx) (hv : ctx.valid = false)
    (hcl : c.closed = false) (herr : c.err = false)
    (hbuf : c.batchBuffer = []) (hoff : c.readOffset = 0) :
    (strNext rs c).1 = false := by
  unfold strNext
  rw [hc]
  simp [hcl, herr, hbuf, hoff, fetchNextBatchStr, wtRangeScanNextBatch, hv]

/-- A string range scan with an empty end key yields nothing. -/
theorem strCollect_empty_end (rs : List WtRec) (startKey : Bytes) (fuel : Nat) :
    strCollect rs fuel (scanRangeStr rs startKey []) = [] := by
  cases fuel with
  | zero => rfl
  | succ n =>
    have hfalse : (strNext rs (scanRangeStr rs startKey [])).1 = false :=
      strNext_invalid_ctx rs _ _ rfl (wtRangeScanInitStr_empty_end rs startKey)
        rfl rfl rfl rfl
    rcases hnx : strNext rs (scanRangeStr rs startKey []) with ⟨b, c'⟩
    rw [hnx] at hfalse
    simp at hfalse
    subst hfalse
    rw [strCollect, hnx]

/-- A single record whose value alone nearly fills the 2 MiB batch buffer
is silently dropped by the binary scan: the batch loop stops before it,
the empty batch reads as end-of-scan, and `Next` returns false. -/
theorem binScan_oversized_dropped (v : Bytes) (hv : v.length = 2097141) :
    binCollect [⟨[1], v⟩] 2 (scanRangeBinary [⟨[1], v⟩] [1] [2]) = [] := by
  have hinit : scanRangeBinary [⟨[1], v⟩] [1] [2]
      = ⟨some ⟨0, true, true, [2]⟩, false, true, [], 0, 0, [], []⟩ := rfl
  rw [hinit]
  have hloop : batchLoopBin [2] 2097152 [⟨[1], v⟩] 4 0
      = ⟨[], 0, 0, true, true⟩ := by
    rw [batchLoopBin_cons]
    rw [if_neg]
    · rw [if_pos]
      simp only [WtRec.key, WtRec.val]
      rw [hv]
      decide
    · simp only [belowEnd, bytesLt, compareWtItems, WtRec.key]
      decide
  have hbatch : wtRangeScanNextBatchBin [⟨[1], v⟩] ⟨0, true, true, [2]⟩ maxBatchBuf
      = (0, none, ⟨0, true, true, [2]⟩) := by
    unfold wtRangeScanNextBatchBin
    rw [if_neg (by decide)]
    simp [maxBatchBuf, hloop]
  unfold binCollect binNext
  simp [fetchBatchBin, hbatch]

/-- One insertion step of the modelled `sort.Slice` permutes. -/
theorem goInsert_perm {α : Type} (less : α → α → Bool) (x : α) (l : List α) :
    List.Perm (goInsert less x l) (x :: l) := by
  induction l with
  | nil => exact List.Perm.refl _
  | cons y ys ih =>
    unfold goInsert
    by_cases h : less x y
    · rw [if_pos h]
    · rw [if_neg h]
      exact (ih.cons y).trans (List.Perm.swap x y ys)

/-- The insertion fold permutes. -/
theorem goSortSlice_foldl_perm {α : Type} (less : α → α → Bool) :
    ∀ (l acc : List α),
      List.Perm (l.foldl (fun acc x => goInsert less x acc) acc) (acc ++ l) := by
  intro l
  induction l with
  | nil => intro acc; simp
  | cons x xs ih =>
    intro acc
    have h1 := ih (goInsert less x acc)
    have h2 : List.Perm (goInsert less x acc ++ xs) ((x :: acc) ++ xs) :=
      (goInsert_perm less x acc).append_right xs
    have h3 : List.Perm ((x :: acc) ++ xs) (acc ++ x :: xs) :=
      List.perm_middle.symm
    exact (h1.trans h2).trans h3

/-- `sort.Slice` as modelled returns a permutation of its input. -/
theorem goSortSlice_perm {α : Type} (less : α → α → Bool) (l : List α) :
    List.Perm (goSortSlice less l) l := by
  have := goSortSlice_foldl_perm less l []
  simpa [goSortSlice] using this

/-- Inserting an index larger than everything already placed keeps the
list sorted lexicographically by (key value, index). -/
theorem goInsert_pairwise_lex (d : Nat → Int) (x : Nat) (l : List Nat)
    (hl : l.Pairwise (fun i j => d i < d j ∨ (d i = d j ∧ i < j)))
    (hx : ∀ y ∈ l, y < x) :
    (goInsert (fun i j => decide (d i < d j)) x l).Pairwise
      (fun i j => d i < d j ∨ (d i = d j ∧ i < j)) := by
  induction l with
  | nil => simp [goInsert]
  | cons y ys ih =>
    unfold goInsert
    by_cases h : d x < d y
    · rw [if_pos (by simpa using h)]
      refine List.Pairwise.cons ?_ hl
      intro z hz
      rcases List.mem_cons.mp hz with rfl | hz'
      · exact Or.inl h
      · obtain ⟨hhead, _⟩ := List.pairwise_cons.mp hl
        rcases hhead z hz' with hyz | ⟨hyz, _⟩
        · exact Or.inl (lt_trans h hyz)
        · exact Or.inl (by omega)
    · rw [if_neg (by simpa using h)]
      obtain ⟨hhead, htail⟩ := List.pairwise_cons.mp hl
      refine List.Pairwise.cons ?_ (ih htail (fun y hy => hx y (by simp [hy])))
      intro z hz
      have hz' : z = x ∨ z ∈ ys :=
        by simpa using
          (goInsert_perm (fun i j => decide (d i < d j)) x ys).mem_iff.mp hz
      rcases hz' with rfl | hz'
      · rcases lt_or_eq_of_le (not_lt.mp h) with hlt | heq
        · exact Or.inl hlt
        · exact Or.inr ⟨heq, hx y (by simp)⟩
      · exact hhead z hz'

/-- Folding insertion over strictly increasing indices yields a list
sorted lexicographically by (key value, index). -/
theorem goSortSlice_foldl_pairwise_lex (d : Nat → Int) :
    ∀ (l acc : List Nat),
      l.Pairwise (fun a b => a < b) →
      acc.Pairwise (fun i j => d i < d j ∨ (d i = d j ∧ i < j)) →
      (∀ a ∈ acc, ∀ b ∈ l, a < b) →
      (l.foldl (fun acc x => goInsert (fun i j => decide (d i < d j)) x acc)
          acc).Pairwise (fun i j => d i < d j ∨ (d i = d j ∧ i < j)) := by
  intro l
  induction l with
  | nil => intro acc _ hacc _; exact hacc
  | cons x xs ih =>
    intro acc hl hacc hcross
    obtain ⟨hxall, hxs⟩ := List.pairwise_cons.mp hl
    refine ih (goInsert (fun i j => decide (d i < d j)) x acc) hxs ?_ ?_
    · exact goInsert_pairwise_lex d x acc hacc
        (fun y hy => hcross y hy x (by simp))
    · intro a ha b hb
      have ha' : a = x ∨ a ∈ acc :=
        by simpa using
          (goInsert_perm (fun i j => decide (d i < d j)) x acc).mem_iff.mp ha
      rcases ha' with rfl | ha'
      · exact hxall b hb
      · exact hcross a ha' b (by simp [hb])

/-- `insertAfterCatalog` on a collection whose index file is not on disk
yet, unfolded past index creation and the stats fetch. -/
theorem insertAfterCatalog_fresh (D : InsertDeps) (key : String)
    (ent : CollectionCatalogEntry) (d0 : GlowstickDocument)
    (rest : List GlowstickDocument) (st : GDBState) (c0 s0 : Nat)
    (hfile : st.files (urlParsePath ent.vectorIndexUri) = none)
    (hstats : D.decStats ((sbGet st.stats key).getD []) = some ⟨c0, s0⟩) :
    insertAfterCatalog D key ent (d0 :: rest) st
      = match insertLoop D ent.tableUri (d0 :: rest)
          { st with files := fun p => if p = urlParsePath ent.vectorIndexUri
              then some ⟨d0.embedding.length, []⟩ else st.files p }
          ⟨d0.embedding.length, []⟩ ⟨c0, s0⟩ with
        | .error e => .error e
        | .ok (st1, idx1, hs1) =>
          match st1.files (urlParsePath ent.vectorIndexUri) with
          | none => .error .statFile
          | some fileIdx =>
            if key = "" ∨ D.encStats ⟨hs1.docCount,
                hs1.vectorIndexSize + D.fileSize fileIdx⟩ = [] then
              .error .statsPut
            else
              .ok { st1 with
                stats := sbPut st1.stats key (D.encStats ⟨hs1.docCount,
                  hs1.vectorIndexSize + D.fileSize fileIdx⟩),
                files := fun p => if p = urlParsePath ent.vectorIndexUri
                  then some idx1 else st1.files p } := by
  unfold insertAfterCatalog
  simp only [hfile, hstats]

/-- The full insert pipeline on a collection with a catalog entry, no
index file on disk, and decodable stats: it succeeds, persists stats with
the loop's document count and the pre-flush index size, flushes the index
with all embeddings appended, writes every L2D entry, and (for distinct
ids) stores every document under its id. -/
theorem insertFresh_spec (D : InsertDeps) (dbName collName : String)
    (docs : List GlowstickDocument) (st : GDBState)
    (ent : CollectionCatalogEntry) (catVal : Bytes) (c0 s0 dim : Nat)
    (hcat : sbGet st.catalog (dbName ++ "." ++ collName) = some catVal)
    (hdec : D.decCat catVal = some ent)
    (hfile : st.files (urlParsePath ent.vectorIndexUri) = none)
    (hstats : D.decStats ((sbGet st.stats (dbName ++ "." ++ collName)).getD [])
      = some ⟨c0, s0⟩)
    (hdimpos : 0 < dim)
    (hne : docs ≠ [])
    (hdim : ∀ d ∈ docs, d.embedding.length = dim)
    (hid : ∀ d ∈ docs, d.id ≠ [])
    (henc : ∀ d ∈ docs, D.encDoc d ≠ [])
    (hkey : dbName ++ "." ++ collName ≠ "")
    (hsenc : D.encStats ⟨c0 + docs.length, s0 + D.fileSize ⟨dim, []⟩⟩ ≠ []) :
    ∃ st',
      insertDocumentsIntoCollection D dbName collName docs st = .ok st' ∧
      sbGet st'.stats (dbName ++ "." ++ collName)
        = some (D.encStats ⟨c0 + docs.length, s0 + D.fileSize ⟨dim, []⟩⟩) ∧
      st'.files (urlParsePath ent.vectorIndexUri)
        = some ⟨dim, docs.map (fun d => d.embedding)⟩ ∧
      (∀ i, ∀ h : i < docs.length,
        (toString ((i : Nat) : Int), bytesToHex (docs.get ⟨i, h⟩).id) ∈ st'.l2d) ∧
      ((docs.map (fun d => d.id)).Nodup →
        ∀ i, ∀ h : i < docs.length,
          kvGet (st'.collections ent.tableUri) (docs.get ⟨i, h⟩).id
            = some (D.encDoc (docs.get ⟨i, h⟩))) := by
  have hpipe : insertDocumentsIntoCollection D dbName collName docs st
      = insertAfterCatalog D (dbName ++ "." ++ collName) ent docs st := by
    unfold insertDocumentsIntoCollection
    simp only [hcat, hdec, Option.getD_some]
  rw [hpipe]
  cases docs with
  | nil => exact absurd rfl hne
  | cons d0 rest =>
  have hd0 : d0.embedding.length = dim := hdim d0 (by simp)
  obtain ⟨st1, heq, hcatP, hstatsP, hfilesP, hcollP, hpreP, hl2dP, hkeepP, htblP⟩ :=
    insertLoop_spec D ent.tableUri (d0 :: rest)
      { st with files := fun p => if p = urlParsePath ent.vectorIndexUri
          then some ⟨d0.embedding.length, []⟩ else st.files p }
      ⟨d0.embedding.length, []⟩ ⟨c0, s0⟩
      (by show 0 < d0.embedding.length; rw [hd0]; exact hdimpos)
      (by intro d hd; rw [hdim d hd, hd0]) hid henc
  rw [insertAfterCatalog_fresh D _ ent d0 rest st c0 s0 hfile hstats, heq]
  simp only []
  have hfile1 : st1.files (urlParsePath ent.vectorIndexUri)
      = some ⟨d0.embedding.length, []⟩ := by
    rw [hfilesP]
    simp
  rw [hfile1]
  simp only []
  rw [if_neg (by push_neg; exact ⟨hkey, by simpa [hd0] using hsenc⟩)]
  refine ⟨_, rfl, ?_, ?_, ?_, ?_⟩
  · simp only []
    rw [sbGet_sbPut_self]
    simp [hd0]
  · simp [hd0]
  · intro i h
    have := hl2dP i h
    simpa using this
  · intro hnodup i h
    have := htblP hnodup i h
    simpa using this

/-! ## Concrete instances used by the claim witnesses and counterexamples -/

/-- A record whose value alone nearly fills the 2 MiB binary batch cap. -/
def c1BigRec : WtRec := ⟨[1], List.replicate 2097141 0⟩

/-- A small sorted three-record table. -/
def wtTable3 : List WtRec := [⟨[1], [10]⟩, ⟨[2], [20]⟩, ⟨[3], [30]⟩]

/-- A concrete injective document encoder (id bytes then embedding). -/
def cEncDoc (d : GlowstickDocument) : Bytes := d.id ++ d.embedding.map Int.toNat

/-- Concrete insert collaborators: catalog value `[7]` decodes to the
entry `(tbl, c.index)`, anything else fails to decode; only the empty
stats value decodes (to zero stats); the on-disk index size is its
vector count. -/
def cDeps : InsertDeps :=
  ⟨cEncDoc, fun b => if b = [7] then some ⟨"tbl", "c.index"⟩ else none,
   fun cs => [1, cs.docCount, cs.vectorIndexSize],
   fun b => if b = [] then some ⟨0, 0⟩ else none,
   fun idx => idx.vecs.length⟩

/-- A freshly initialised database: one catalog entry, nothing else. -/
def cSt : GDBState := ⟨[("a.b", [7])], [], [], fun _ => [], fun _ => none⟩

/-- The observable outcome of an insert call (its error, if any). -/
def insResult (r : Except InsError GDBState) : Option InsError :=
  match r with
  | .error e => some e
  | .ok _ => none

/-- A database whose catalog value `[9]` does not decode. -/
def c10St : GDBState := ⟨[("a.b", [9])], [], [], fun _ => [], fun _ => none⟩

/-- Two documents with distinct ids for the insert witnesses. -/
def c2WitDocs : List GlowstickDocument := [⟨[1], [5], "x"⟩, ⟨[2], [6], "y"⟩]

/-- One document for the stats witness. -/
def c4WitDocs : List GlowstickDocument := [⟨[1], [5], "x"⟩]

/-- A 12-byte ObjectID ending in 1. -/
def c3IdA : Bytes := [0, 0, 0, 0, 0, 0, 0, 0, 0, 0, 0, 1]

/-- A 12-byte ObjectID ending in 2. -/
def c3IdB : Bytes := [0, 0, 0, 0, 0, 0, 0, 0, 0, 0, 0, 2]

/-- The document stored under FAISS label 5. -/
def c3DocA : GlowstickDocument := ⟨c3IdA, [0], "A"⟩

/-- The document stored under FAISS label 2. -/
def c3DocB : GlowstickDocument := ⟨c3IdB, [0], "B"⟩

/-- Concrete query collaborators whose search returns two results at the
same distance with ids `[5, 2]` in that order. -/
def c3Deps : QueryDeps :=
  ⟨fun b => if b = [7] then some ⟨"tbl", "c.index"⟩ else none,
   fun b => if b = [1] then some c3DocA else if b = [2] then some c3DocB else none,
   fun _ _ _ _ => ([1, 1], [5, 2])⟩

/-- A populated database for the query counterexamples: both labels map
to stored documents. -/
def c3St : GDBState :=
  ⟨[("a.b", [7])], [], [("5", bytesToHex c3IdA), ("2", bytesToHex c3IdB)],
   fun t => if t = "tbl" then [(c3IdA, [1]), (c3IdB, [2])] else [],
   fun p => if p = "c.index" then some ⟨1, []⟩ else none⟩

/-- The same database with an empty collection table: every search
result's document is missing. -/
def c8St : GDBState :=
  ⟨[("a.b", [7])], [], [("5", bytesToHex c3IdA), ("2", bytesToHex c3IdB)],
   fun _ => [],
   fun p => if p = "c.index" then some ⟨1, []⟩ else none⟩

/-! ## The claim theorems -/

/-- C1 (corrected): for a sorted table every record of which fits the
2 MiB batch buffer, and non-empty bounds with `startKey < endKey`,
iterating the binary range cursor via `Next` until it returns false
yields exactly the keys `k` with `startKey ≤ k < endKey`, each once, in
strictly ascending unsigned-byte order.  The fits-the-buffer hypothesis
is necessary: see the oversized-record counterexample. -/
theorem c1_binary_range_scan_exact (rs : List WtRec) (startKey endKey : Bytes)
    (hs : TableSorted rs) (hfits : ∀ r ∈ rs, fitsCap maxBatchBuf r)
    (hse : startKey ≠ []) (hee : endKey ≠ [])
    (hlt : bytesLt startKey endKey = true)
    (fuel : Nat) (hfuel : rs.length < fuel) :
    binCollect rs fuel (scanRangeBinary rs startKey endKey)
      = (rs.filter (fun r => bytesLe startKey r.key && bytesLt r.key endKey)).map
          (fun r => r.key) ∧
    ((rs.filter (fun r => bytesLe startKey r.key && bytesLt r.key endKey)).map
        (fun r => r.key)).Pairwise (fun a b => bytesLt a b) := by
  have hfe : (fun r : WtRec => bytesLe startKey r.key && belowEnd endKey r.key)
      = (fun r : WtRec => bytesLe startKey r.key && bytesLt r.key endKey) := by
    funext r
    rw [belowEnd_of_ne_nil hee]
  constructor
  · rw [binScanRange_collect rs startKey endKey hs hfits fuel hfuel, hfe]
  · exact (List.Pairwise.filter _ hs).map _ (fun a b h => h)

/-- Witness for C1: scanning `[2, 3)` over a three-record table. -/
theorem c1_binary_range_scan_exact_witness :
    binCollect wtTable3 4 (scanRangeBinary wtTable3 [2] [3])
      = (wtTable3.filter (fun r => bytesLe [2] r.key && bytesLt r.key [3])).map
          (fun r => r.key) ∧
    ((wtTable3.filter (fun r => bytesLe [2] r.key && bytesLt r.key [3])).map
        (fun r => r.key)).Pairwise (fun a b => bytesLt a b) :=
  c1_binary_range_scan_exact wtTable3 [2] [3]
    (by unfold TableSorted; decide)
    (by intro r hr; fin_cases hr <;> (unfold fitsCap maxBatchBuf; decide))
    (by decide) (by decide) (by decide) 4 (by decide)

/-- Counterexample to C1 as stated: a sorted single-record table with
non-empty bounds `[1] ≤ k < [2]` containing the key `[1]`, whose record
is too large for the 2 MiB batch buffer; the cursor yields nothing
instead of the key, silently. -/
theorem c1_oversized_record_counterexample :
    TableSorted [c1BigRec] ∧ bytesLt [1] [2] = true ∧
    ¬ fitsCap maxBatchBuf c1BigRec ∧
    binCollect [c1BigRec] 2 (scanRangeBinary [c1BigRec] [1] [2]) = [] ∧
    ([c1BigRec].filter (fun r => bytesLe [1] r.key && bytesLt r.key [2])).map
      (fun r => r.key) = [[1]] := by
  have hkey : c1BigRec.key = [1] := rfl
  have hval : c1BigRec.val.length = 2097141 := by
    unfold c1BigRec
    exact List.length_replicate _ _
  refine ⟨?_, by decide, ?_, ?_, ?_⟩
  · unfold TableSorted
    exact List.pairwise_singleton _ _
  · unfold fitsCap maxBatchBuf
    rw [hkey, hval]
    decide
  · exact binScan_oversized_dropped c1BigRec.val hval
  · have hp : (bytesLe [1] c1BigRec.key && bytesLt c1BigRec.key [2]) = true := by
      rw [hkey]
      decide
    rw [List.filter_cons, if_pos hp, List.filter_nil, List.map_cons, List.map_nil,
      hkey]

/-- C2 (corrected): on a fresh collection (catalog entry decodes, no
index file on disk, stats decode to document count 0) a successful
insert of documents with pairwise-distinct non-empty ids, non-empty
encodings and uniform dimension persists STATS with `docCount = N`,
leaves for every `i < N` the L2D entry `decimal(i) ↦ hex(docs[i].id)`,
and stores each document's encoding under its raw id.  Distinctness of
the ids is necessary: see the duplicate-id counterexample. -/
theorem c2_fresh_insert_postconditions (D : InsertDeps)
    (dbName collName : String) (docs : List GlowstickDocument) (st : GDBState)
    (ent : CollectionCatalogEntry) (catVal : Bytes) (s0 dim : Nat)
    (hcat : sbGet st.catalog (dbName ++ "." ++ collName) = some catVal)
    (hdec : D.decCat catVal = some ent)
    (hfile : st.files (urlParsePath ent.vectorIndexUri) = none)
    (hstats : D.decStats ((sbGet st.stats (dbName ++ "." ++ collName)).getD [])
      = some ⟨0, s0⟩)
    (hdimpos : 0 < dim)
    (hne : docs ≠ [])
    (hdim : ∀ d ∈ docs, d.embedding.length = dim)
    (hid : ∀ d ∈ docs, d.id ≠ [])
    (henc : ∀ d ∈ docs, D.encDoc d ≠ [])
    (hkey : dbName ++ "." ++ collName ≠ "")
    (hsenc : D.encStats ⟨docs.length, s0 + D.fileSize ⟨dim, []⟩⟩ ≠ [])
    (hnodup : (docs.map (fun d => d.id)).Nodup) :
    ∃ st',
      insertDocumentsIntoCollection D dbName collName docs st = .ok st' ∧
      sbGet st'.stats (dbName ++ "." ++ collName)
        = some (D.encStats ⟨docs.length, s0 + D.fileSize ⟨dim, []⟩⟩) ∧
      (∀ i, ∀ h : i < docs.length,
        (toString ((i : Nat) : Int), bytesToHex (docs.get ⟨i, h⟩).id) ∈ st'.l2d) ∧
      (∀ i, ∀ h : i < docs.length,
        kvGet (st'.collections ent.tableUri) (docs.get ⟨i, h⟩).id
          = some (D.encDoc (docs.get ⟨i, h⟩))) := by
  obtain ⟨st', hok, hstats', hfiles', hl2d', htbl'⟩ :=
    insertFresh_spec D dbName collName docs st ent catVal 0 s0 dim
      hcat hdec hfile hstats hdimpos hne hdim hid henc hkey (by simpa using hsenc)
  exact ⟨st', hok, by simpa using hstats', hl2d', htbl' hnodup⟩

/-- Witness for C2: two documents inserted into a fresh collection. -/
theorem c2_fresh_insert_postconditions_witness :
    ∃ st' : GDBState,
      insertDocumentsIntoCollection cDeps "a" "b" c2WitDocs cSt = .ok st' ∧
      sbGet st'.stats ("a" ++ "." ++ "b")
        = some (cDeps.encStats ⟨c2WitDocs.length, 0 + cDeps.fileSize ⟨1, []⟩⟩) ∧
      (∀ i, ∀ h : i < c2WitDocs.length,
        (toString ((i : Nat) : Int), bytesToHex (c2WitDocs.get ⟨i, h⟩).id)
          ∈ st'.l2d) ∧
      (∀ i, ∀ h : i < c2WitDocs.length,
        kvGet (st'.collections
            (⟨"tbl", "c.index"⟩ : CollectionCatalogEntry).tableUri)
            (c2WitDocs.get ⟨i, h⟩).id
          = some (cDeps.encDoc (c2WitDocs.get ⟨i, h⟩))) :=
  c2_fresh_insert_postconditions cDeps "a" "b" c2WitDocs cSt
    ⟨"tbl", "c.index"⟩ [7] 0 1
    (by decide) (by decide) (by decide) (by decide) (by decide) (by decide)
    (by decide) (by decide) (by decide) (by decide) (by decide) (by decide)

/-- Counterexample to C2 as stated: two documents sharing the id `[1]`
with different encodings insert successfully, but the collection table
maps `[1]` to the second document's encoding, so it does not map
`docs[0]`'s id to `docs[0]`'s encoding. -/
theorem c2_duplicate_id_counterexample :
    ((insertDocumentsIntoCollection cDeps "a" "b"
        [⟨[1], [5], "a"⟩, ⟨[1], [6], "b"⟩] cSt).toOption.map
      (fun st => kvGet (st.collections "tbl") [1]))
      = some (some (cEncDoc ⟨[1], [6], "b"⟩)) ∧
    cEncDoc ⟨[1], [6], "b"⟩ ≠ cEncDoc ⟨[1], [5], "a"⟩ := by
  refine ⟨by decide, by decide⟩

/-- C3 (corrected): for at most 12 search results — where `sort.Slice`
runs plain insertion sort and the model is exact — the visit order of
`QueryCollection` is a permutation of the search-result positions sorted
by ascending distance, with ties left in search-result (index) order.
The sort has no id tiebreak, so equal-distance results are NOT ordered
by ascending id (see the counterexample); above 12 results `sort.Slice`
is unstable and even the index tie order is not guaranteed. -/
theorem c3_query_sort_order (distances : List Int)
    (hlen : distances.length ≤ 12) :
    List.Perm (querySortedIndices distances) (List.range distances.length) ∧
    (querySortedIndices distances).Pairwise
      (fun i j => distances.getD i 0 < distances.getD j 0
        ∨ (distances.getD i 0 = distances.getD j 0 ∧ i < j)) := by
  constructor
  · exact goSortSlice_perm _ _
  · have := goSortSlice_foldl_pairwise_lex (fun i => distances.getD i 0)
      (List.range distances.length) [] (List.pairwise_lt_range _)
      (List.Pairwise.nil) (by intro a ha; cases ha)
    simpa [querySortedIndices, goSortSlice] using this

/-- Witness for C3: four results with a tied pair of distances. -/
theorem c3_query_sort_order_witness :
    List.Perm (querySortedIndices [3, 1, 1, 2]) (List.range 4) ∧
    (querySortedIndices [3, 1, 1, 2]).Pairwise
      (fun i j => List.getD ([3, 1, 1, 2] : List Int) i 0
          < List.getD ([3, 1, 1, 2] : List Int) j 0
        ∨ (List.getD ([3, 1, 1, 2] : List Int) i 0
            = List.getD ([3, 1, 1, 2] : List Int) j 0 ∧ i < j)) :=
  c3_query_sort_order [3, 1, 1, 2] (by decide)

/-- Counterexample to C3 as stated: a search returning equal distances
with ids `[5, 2]` produces the documents in id order 5 then 2 — not the
ascending-id tiebreak the claim asserts (2 < 5). -/
theorem c3_tie_order_counterexample :
    (queryCollection c3Deps "a" "b" ⟨2, 0, [3]⟩ c3St).toOption
      = some ([c3DocA, c3DocB], none) ∧
    c3Deps.search ⟨1, []⟩ [3] 1 2 = ([1, 1], [5, 2]) ∧
    ((2 : Int) < 5) := by
  refine ⟨by decide, by decide, by decide⟩

/-- C4 (corrected): after a successful insert on a fresh collection the
persisted `Vector_Index_Size` is the PREVIOUS stored size plus the size
of the index file as it was BEFORE the final flush (here the empty
just-created index) — it is accumulated, not set, and does not reflect
the post-flush file, which holds all the inserted embeddings. -/
theorem c4_vector_index_size_stored (D : InsertDeps)
    (dbName collName : String) (docs : List GlowstickDocument) (st : GDBState)
    (ent : CollectionCatalogEntry) (catVal : Bytes) (c0 s0 dim : Nat)
    (hcat : sbGet st.catalog (dbName ++ "." ++ collName) = some catVal)
    (hdec : D.decCat catVal = some ent)
    (hfile : st.files (urlParsePath ent.vectorIndexUri) = none)
    (hstats : D.decStats ((sbGet st.stats (dbName ++ "." ++ collName)).getD [])
      = some ⟨c0, s0⟩)
    (hdimpos : 0 < dim)
    (hne : docs ≠ [])
    (hdim : ∀ d ∈ docs, d.embedding.length = dim)
    (hid : ∀ d ∈ docs, d.id ≠ [])
    (henc : ∀ d ∈ docs, D.encDoc d ≠ [])
    (hkey : dbName ++ "." ++ collName ≠ "")
    (hsenc : D.encStats ⟨c0 + docs.length, s0 + D.fileSize ⟨dim, []⟩⟩ ≠ []) :
    ∃ st',
      insertDocumentsIntoCollection D dbName collName docs st = .ok st' ∧
      sbGet st'.stats (dbName ++ "." ++ collName)
        = some (D.encStats ⟨c0 + docs.length, s0 + D.fileSize ⟨dim, []⟩⟩) ∧
      st'.files (urlParsePath ent.vectorIndexUri)
        = some ⟨dim, docs.map (fun d => d.embedding)⟩ := by
  obtain ⟨st', hok, hstats', hfiles', _, _⟩ :=
    insertFresh_spec D dbName collName docs st ent catVal c0 s0 dim
      hcat hdec hfile hstats hdimpos hne hdim hid henc hkey hsenc
  exact ⟨st', hok, hstats', hfiles'⟩

/-- Witness for C4: one document inserted into a fresh collection. -/
theorem c4_vector_index_size_stored_witness :
    ∃ st' : GDBState,
      insertDocumentsIntoCollection cDeps "a" "b" c4WitDocs cSt = .ok st' ∧
      sbGet st'.stats ("a" ++ "." ++ "b")
        = some (cDeps.encStats ⟨0 + c4WitDocs.length,
            0 + cDeps.fileSize ⟨1, []⟩⟩) ∧
      st'.files (urlParsePath
          (⟨"tbl", "c.index"⟩ : CollectionCatalogEntry).vectorIndexUri)
        = some ⟨1, c4WitDocs.map (fun d => d.embedding)⟩ :=
  c4_vector_index_size_stored cDeps "a" "b" c4WitDocs cSt
    ⟨"tbl", "c.index"⟩ [7] 0 0 1
    (by decide) (by decide) (by decide) (by decide) (by decide) (by decide)
    (by decide) (by decide) (by decide) (by decide) (by decide)

/-- Counterexample to C4 as stated: after inserting one document the
stored stats record size 0 (the pre-flush, empty index) while the
on-disk file after the final flush holds one vector and has size 1. -/
theorem c4_preflush_size_counterexample :
    ((insertDocumentsIntoCollection cDeps "a" "b" [⟨[1], [5], "x"⟩]
        cSt).toOption.map
      (fun st => (sbGet st.stats "a.b", st.files "c.index")))
      = some (some (cDeps.encStats ⟨1, 0⟩), some ⟨1, [[5]]⟩) ∧
    cDeps.fileSize ⟨1, [[5]]⟩ = 1 ∧
    cDeps.encStats ⟨1, 0⟩ ≠ cDeps.encStats ⟨1, 1⟩ := by
  refine ⟨by decide, by decide, by decide⟩

/-- C5 (corrected): point reads never return an error for any engine
code — an absent key gives `(zero value, false, nil)` as claimed, but so
does EVERY other non-zero code: the original code is discarded and
engine failures are indistinguishable from not-found.  (`GetBinary`
additionally rejects an empty key with an error before calling the
engine.) -/
theorem c5_point_reads (code : Int) (s : String) (v bk : Bytes)
    (hc : code ≠ 0) (hk : bk ≠ []) :
    goGetString true (code, s) = ("", false, false) ∧
    goGetBinary true bk (code, v) = ([], false, false) ∧
    (∀ tbl k, skvGet tbl k = none →
      goGetString true (wtGetStr tbl k) = ("", false, false)) ∧
    (∀ tbl k w, skvGet tbl k = some w →
      goGetString true (wtGetStr tbl k) = (w, true, false)) ∧
    (∀ tbl k, k ≠ [] → kvGet tbl k = none →
      goGetBinary true k (wtGetBin tbl k) = ([], false, false)) ∧
    (∀ tbl k w, k ≠ [] → kvGet tbl k = some w →
      goGetBinary true k (wtGetBin tbl k) = (w, true, false)) := by
  refine ⟨?_, ?_, ?_, ?_, ?_, ?_⟩
  · simp [goGetString, hc]
  · simp [goGetBinary, hc, hk]
  · intro tbl k hget
    simp [goGetString, wtGetStr, hget, WT_NOTFOUND]
  · intro tbl k w hget
    simp [goGetString, wtGetStr, hget]
  · intro tbl k hk' hget
    simp [goGetBinary, wtGetBin, hget, hk', WT_NOTFOUND]
  · intro tbl k w hk' hget
    simp [goGetBinary, wtGetBin, hget, hk']

/-- Witness for C5: the engine code -5 (neither 0 nor not-found) gives
the zero result with no error on both point reads. -/
theorem c5_point_reads_witness :
    goGetString true (-5, "boom") = ("", false, false) ∧
    goGetBinary true [1] (-5, [9]) = ([], false, false) :=
  ⟨(c5_point_reads (-5) "boom" [9] [1] (by decide) (by decide)).1,
   (c5_point_reads (-5) "boom" [9] [1] (by decide) (by decide)).2.1⟩

/-- Counterexample to C5 as stated: the failing code -5 produces exactly
the not-found result with a nil error — nothing preserves the code. -/
theorem c5_error_counterexample :
    goGetString true (-5, "x") = goGetString true (WT_NOTFOUND, "") ∧
    (goGetString true (-5, "x")).2.2 = false ∧
    (-5 : Int) ≠ 0 ∧ (-5 : Int) ≠ WT_NOTFOUND := by
  refine ⟨by decide, by decide, by decide, by decide⟩

/-- C6 (corrected): an empty `endKey` means "no upper bound" for the
BINARY cursor only — it yields every key ≥ `startKey` to the end of the
table.  The STRING cursor's init has no empty-end-key guard, compares
every key against the empty string, and yields NOTHING. -/
theorem c6_empty_end_key (rs : List WtRec) (startKey : Bytes)
    (hs : TableSorted rs) (hfits : ∀ r ∈ rs, fitsCap maxBatchBuf r)
    (fuel : Nat) (hfuel : rs.length < fuel) (sfuel : Nat) :
    binCollect rs fuel (scanRangeBinary rs startKey [])
      = (rs.filter (fun r => bytesLe startKey r.key)).map (fun r => r.key) ∧
    strCollect rs sfuel (scanRangeStr rs startKey []) = [] := by
  constructor
  · rw [binScanRange_collect rs startKey [] hs hfits fuel hfuel]
    congr 1
    apply List.filter_congr
    intro r _
    simp [belowEnd]
  · exact strCollect_empty_end rs startKey sfuel

/-- Witness for C6: the three-record table with start key `[2]` and an
empty end key. -/
theorem c6_empty_end_key_witness :
    binCollect wtTable3 4 (scanRangeBinary wtTable3 [2] [])
      = (wtTable3.filter (fun r => bytesLe [2] r.key)).map (fun r => r.key) ∧
    strCollect wtTable3 4 (scanRangeStr wtTable3 [2] []) = [] :=
  c6_empty_end_key wtTable3 [2]
    (by unfold TableSorted; decide)
    (by intro r hr; fin_cases hr <;> (unfold fitsCap maxBatchBuf; decide))
    4 (by decide) 4

/-- Counterexample to C6 as stated: with both bounds empty over a
one-record table the string cursor yields nothing although the table
holds the key `[1]` (which the binary cursor does yield). -/
theorem c6_string_empty_end_counterexample :
    strCollect [⟨[1], [7]⟩] 2 (scanRangeStr [⟨[1], [7]⟩] [] []) = [] ∧
    ([⟨[1], [7]⟩] : List WtRec).map (fun r => r.key) = [[1]] ∧
    binCollect [⟨[1], [7]⟩] 2 (scanRangeBinary [⟨[1], [7]⟩] [] []) = [[1]] := by
  refine ⟨by decide, by decide, by decide⟩

/-- C7 (code bug): inserting an EMPTY document slice into an existing
collection whose vector-index file is not on disk yet (the state right
after collection creation) reads `documents[0].Embedding` and panics
instead of succeeding. -/
theorem c7_empty_insert_panics :
    insResult (insertDocumentsIntoCollection cDeps "a" "b" [] cSt)
      = some .panicIndexOutOfRange := by decide

/-- C8 (corrected): per search result with id ≥ 0, a bad L2D value
(wrong length), an unparsable or all-zero ObjectID, or a BSON decode
failure latches the corresponding error and skips the result — but a
document MISSING from the collection table is skipped with NO error
latched, so a query whose last result's document is missing returns a
nil error. -/
theorem c8_per_result_leniency (D : QueryDeps) (st : GDBState)
    (tableUri : String) (minDistance : Int) (distances ids : List Int)
    (acc : List GlowstickDocument × Option QueryErr) (index : Nat) :
    (ids.getD index (-1) < 0 →
      queryLoopStep D st tableUri minDistance distances ids acc index = acc) ∧
    (0 ≤ ids.getD index (-1) →
      ((skvGet st.l2d (toString (ids.getD index (-1)))).getD "").length ≠ 24 →
      queryLoopStep D st tableUri minDistance distances ids acc index
        = (acc.1, some .hexLen)) ∧
    (∀ val, 0 ≤ ids.getD index (-1) →
      (skvGet st.l2d (toString (ids.getD index (-1)))).getD "" = val →
      val.length = 24 → objectIDFromHex val = none →
      queryLoopStep D st tableUri minDistance distances ids acc index
        = (acc.1, some .hexParse)) ∧
    (∀ val oid, 0 ≤ ids.getD index (-1) →
      (skvGet st.l2d (toString (ids.getD index (-1)))).getD "" = val →
      val.length = 24 → objectIDFromHex val = some oid → oid ≠ zeroObjectID →
      oid.length = 12 → kvGet (st.collections tableUri) oid = none →
      queryLoopStep D st tableUri minDistance distances ids acc index = acc) ∧
    (∀ val oid docBin, 0 ≤ ids.getD index (-1) →
      (skvGet st.l2d (toString (ids.getD index (-1)))).getD "" = val →
      val.length = 24 → objectIDFromHex val = some oid → oid ≠ zeroObjectID →
      oid.length = 12 → kvGet (st.collections tableUri) oid = some docBin →
      docBin ≠ [] → D.decDoc docBin = none →
      queryLoopStep D st tableUri minDistance distances ids acc index
        = (acc.1, some .bsonUnmarshal)) := by
  refine ⟨?_, ?_, ?_, ?_, ?_⟩
  · intro hneg
    unfold queryLoopStep
    rw [if_pos hneg]
  · intro hpos hlen
    unfold queryLoopStep
    rw [if_neg (not_lt.mpr hpos)]
    rw [if_pos hlen]
  · intro val hpos hval hlen hhex
    unfold queryLoopStep
    rw [if_neg (not_lt.mpr hpos)]
    simp only [hval, hlen, hhex]
    rw [if_neg (by decide)]
  · intro val oid hpos hval hlen hhex hzero hlen12 hget
    unfold queryLoopStep
    rw [if_neg (not_lt.mpr hpos)]
    simp only [hval, hlen, hhex, hget, if_neg (by decide : ¬ ((24 : Nat) ≠ 24)),
      if_neg hzero, hlen12, if_neg (by decide : ¬ ((12 : Nat) ≠ 12)),
      Option.getD_none]
    rw [if_neg (by decide)]
  · intro val oid docBin hpos hval hlen hhex hzero hlen12 hget hbin hdec
    unfold queryLoopStep
    rw [if_neg (not_lt.mpr hpos)]
    simp only [hval, hlen, hhex, hget, if_neg (by decide : ¬ ((24 : Nat) ≠ 24)),
      if_neg hzero, hlen12, if_neg (by decide : ¬ ((12 : Nat) ≠ 12)),
      Option.getD_some, hdec]
    rw [if_pos (List.length_pos.mpr hbin)]

/-- Counterexample to C8 as stated: both search results resolve through
L2D to valid ObjectIDs whose documents are missing from the collection
table; the query returns the empty list with a NIL error instead of the
claimed missing-document error. -/
theorem c8_missing_doc_no_error :
    (queryCollection c3Deps "a" "b" ⟨2, 0, [3]⟩ c8St).toOption
      = some ([], none) ∧
    skvGet c8St.l2d "5" = some (bytesToHex c3IdA) ∧
    kvGet (c8St.collections "tbl") c3IdA = none := by
  refine ⟨by decide, by decide, by decide⟩

/-- C9 (corrected): for both cursor kinds `Close` is idempotent and
`Next` after `Close` returns false, as claimed; but `Current` /
`CurrentString` errors exactly when the `valid` flag is unset (for the
string cursor: or an error is latched) — NOT whenever the most recent
`Next` did not return true: both constructors set `valid` regardless of
positioning and `Close` leaves it untouched, so `Current` succeeds
before any `Next` and after `Close` (see the counterexample). -/
theorem c9_close_next_current :
    (∀ c : BinaryRangeCursor, binClose (binClose c) = binClose c) ∧
    (∀ c : StringRangeCursor, closeStr (closeStr c) = closeStr c) ∧
    (∀ (rs : List WtRec) (c : BinaryRangeCursor),
      (binNext rs (binClose c)).1 = false) ∧
    (∀ (rs : List WtRec) (c : StringRangeCursor),
      (strNext rs (closeStr c)).1 = false) ∧
    (∀ c : BinaryRangeCursor, binCurrent c = none ↔ c.valid = false) ∧
    (∀ c : StringRangeCursor,
      currentString c = none ↔ (c.valid = false ∨ c.err = true)) := by
  refine ⟨fun c => rfl, ?_, fun rs c => rfl, ?_, ?_, ?_⟩
  · intro c
    unfold closeStr
    by_cases h : c.closed || c.ctx.isNone
    · rw [if_pos h, if_pos h]
    · rw [if_neg h, if_pos (by simp)]
  · intro rs c
    unfold closeStr
    by_cases h : c.closed || c.ctx.isNone
    · rw [if_pos h]
      unfold strNext
      rcases hc : c.ctx with _ | ctx
      · rfl
      · have hcl : c.closed = true := by
          rcases Bool.or_eq_true_iff.mp h with h' | h'
          · exact h'
          · rw [hc] at h'
            simp at h'
        rw [hcl]
        simp
    · rw [if_neg h]
      unfold strNext
      rcases hc : c.ctx with _ | ctx
      · rfl
      · simp [hc]
  · intro c
    unfold binCurrent
    cases h : c.valid <;> simp
  · intro c
    unfold currentString
    cases hv : c.valid <;> cases he : c.err <;> simp

/-- Counterexample to C9 as stated: before any `Next` the fresh string
cursor's `CurrentString` returns a (garbage) record rather than an
error, and after one successful `Next` and a `Close` the binary cursor's
`Current` still returns the record rather than an error. -/
theorem c9_current_counterexample :
    currentString (scanRangeStr [⟨[1], [7]⟩] [] [2]) = some ([], []) ∧
    binCurrent (binClose (binNext [⟨[1], [7]⟩]
        (scanRangeBinary [⟨[1], [7]⟩] [] [])).2) = some ([1], [7]) := by
  refine ⟨by decide, by decide⟩

/-- C10 (confirmed): when the catalog value exists but does not decode,
both the insert and the query pipelines proceed with the zero-valued
collection record instead of returning a serialization error. -/
theorem c10_catalog_decode_discarded (D : InsertDeps) (Q : QueryDeps)
    (dbName collName : String) (docs : List GlowstickDocument)
    (q : QueryStruct) (st : GDBState) (val : Bytes)
    (hval : sbGet st.catalog (dbName ++ "." ++ collName) = some val)
    (hdec : D.decCat val = none) (hqdec : Q.decCat val = none) :
    insertDocumentsIntoCollection D dbName collName docs st
      = insertAfterCatalog D (dbName ++ "." ++ collName)
          CollectionCatalogEntry.zero docs st ∧
    queryCollection Q dbName collName q st
      = queryAfterCatalog Q CollectionCatalogEntry.zero q st := by
  constructor
  · unfold insertDocumentsIntoCollection
    simp only [hval, hdec, Option.getD_none]
  · unfold queryCollection
    simp only [hval, hqdec, Option.getD_none]

/-- Witness for C10: the stored catalog value `[9]` decodes under
neither codec, and both operations continue with the zero record. -/
theorem c10_catalog_decode_discarded_witness :
    insertDocumentsIntoCollection cDeps "a" "b" [] c10St
      = insertAfterCatalog cDeps ("a" ++ "." ++ "b")
          CollectionCatalogEntry.zero [] c10St ∧
    queryCollection c3Deps "a" "b" ⟨1, 0, []⟩ c10St
      = queryAfterCatalog c3Deps CollectionCatalogEntry.zero ⟨1, 0, []⟩ c10St :=
  c10_catalog_decode_discarded cDeps c3Deps "a" "b" [] ⟨1, 0, []⟩ c10St [9]
    (by decide) (by decide) (by decide)
